import Mathlib

/-!
# A verification development for the `clock` package

The package is a test double for wall-clock time (`clock.go`).  A `*Clock`
holds a call index, two function values (the time-source `nowCallback` and the
optional sleep-effect `sleepCallback`) and the log `napDurations`.

Embedding conventions.

* A Go function value that may mutate captured variables is a function on an
  explicit environment `σ` (the captured variables).  It returns an `Outcome`
  (normal return or panic) together with the environment it leaves behind.
  Callbacks act on their environment only: they do not re-enter the clock
  they are installed in.
* A `*Clock` receiver is `Option (Clock σ)`, `none` being the nil pointer.
* A method is a function from the program state to an outcome and the state
  left behind; the state is kept on a panic as well, since a caller may
  `recover` and go on using the clock.
* `time.Time` and `time.Duration` belong to the standard library.  An instant
  is a number of nanoseconds on the time line, a duration is an integer number
  of nanoseconds; `Time.Sub` saturates at the 64-bit bounds as the library
  documents.
* The field `index` is a Go `int`, an integer that counts calls upward from
  zero, one per call.
* Two arithmetics.  The first definitions compute on the index and on instants
  with unbounded integers: they describe the code for as long as the index is
  below the greatest `int` and the instants are within the range of
  `time.Time`.  The section on machine arithmetic gives the same code the
  arithmetic of Go on a 64-bit build: `c.index++` wraps, and `Time.Add` stops at
  the ends of the range of `time.Time`.  The claims about arbitrarily long runs
  and arbitrary instants are settled with the machine arithmetic.
-/

namespace clock

/-! ## Standard-library types -/

/-- An instant (`time.Time`): nanoseconds on the time line. -/
structure Time where
  ns : Int
deriving DecidableEq, Repr

/-- A span of time (`time.Duration`, an `int64` count of nanoseconds). -/
abbrev Duration := Int

/-- The least `time.Duration`. -/
def minDuration : Duration := -(2 ^ 63)

/-- The greatest `time.Duration`. -/
def maxDuration : Duration := 2 ^ 63 - 1

/-- Two-complement wrap-around of an integer into the `int64` range. -/
def wrapInt64 (x : Int) : Int := (x + 2 ^ 63) % 2 ^ 64 - 2 ^ 63

/-- The method `t.Add(d)`: the instant `d` after `t`. -/
def Time.Add (t : Time) (d : Duration) : Time := ⟨t.ns + d⟩

/-- The method `t.Sub(u)`: the duration `t - u`, replaced by the least or
greatest duration when the difference does not fit. -/
def Time.Sub (t u : Time) : Duration :=
  let d : Duration := wrapInt64 (t.ns - u.ns)
  if u.Add d = t then d
  else if t.ns < u.ns then minDuration
  else maxDuration

/-- The real clock and the real sleep primitive, as far as the package uses
them: `now` is what `time.Now()` reads, `sleeps` lists the arguments of the
`time.Sleep` calls made so far. -/
structure RealTime where
  now : Time
  sleeps : List Duration
deriving DecidableEq, Repr

/-- The primitive `time.Now()`. -/
def timeNow (r : RealTime) : Time := r.now

/-- The primitive `time.Sleep(d)`: blocks for `d` when `d` is positive and
returns at once otherwise. -/
def timeSleep (d : Duration) (r : RealTime) : RealTime :=
  { now := if 0 < d then r.now.Add d else r.now, sleeps := r.sleeps ++ [d] }

/-! ## Panics -/

/-- The value carried by a panic. -/
inductive PanicValue where
  | message (msg : String)
  | nilDereference
  | indexOutOfRange
deriving DecidableEq, Repr

/-- How a call ends: it returns a value or it panics. -/
inductive Outcome (α : Type) where
  | ret (v : α)
  | panic (p : PanicValue)
deriving DecidableEq, Repr

/-- The panic raised by `slicesNowFn` when the instants are used up. -/
def exhausted : PanicValue := .message "ran out of moments frozen in time"

/-! ## The data model (`clock.go`, lines 8-15) -/

/-- The type `NowCallbackFn`, `func(int) time.Time`, over captured variables `σ`. -/
abbrev NowCallbackFn (σ : Type) := Int → σ → Outcome Time × σ

/-- The type `SleepCallbackFn`, `func(time.Duration)`, over captured variables `σ`. -/
abbrev SleepCallbackFn (σ : Type) := Duration → σ → Outcome Unit × σ

/-- The struct `Clock`.  A function-typed field may be nil (`none`). -/
structure Clock (σ : Type) where
  index : Int
  nowCallback : Option (NowCallbackFn σ)
  sleepCallback : Option (SleepCallbackFn σ)
  napDurations : List Duration

/-- The program state a method call acts on: the receiver `c` (a `*Clock`,
`none` when nil), the variables captured by its callbacks, and the real time
primitives. -/
structure State (σ : Type) where
  clock : Option (Clock σ)
  env : σ
  real : RealTime

/-! ## Constructors (`clock.go`, lines 17-59) -/

/-- The function `NewClockFromCallbacks`: index zero, the two functions as
given, an empty log. -/
def NewClockFromCallbacks {σ : Type} (nowFn : Option (NowCallbackFn σ))
    (sleepFn : Option (SleepCallbackFn σ)) : Clock σ :=
  { index := 0, nowCallback := nowFn, sleepCallback := sleepFn, napDurations := [] }

/-- The function `NewDefaultSleeperCallbacks`: the two closures over the
variable `sleeperNow`, and the initial value of that variable. -/
def NewDefaultSleeperCallbacks (start : Time) :
    (NowCallbackFn Time × SleepCallbackFn Time) × Time :=
  let nowFn : NowCallbackFn Time := fun _ sleeperNow => (.ret sleeperNow, sleeperNow)
  let sleepFn : SleepCallbackFn Time := fun d sleeperNow => (.ret (), sleeperNow.Add d)
  ((nowFn, sleepFn), start)

/-- The function `NewClockAt`. -/
def NewClockAt (instant : Time) (real : RealTime) : State Time :=
  let fns := NewDefaultSleeperCallbacks instant
  { clock := some (NewClockFromCallbacks (some fns.1.1) (some fns.1.2)),
    env := fns.2, real := real }

/-- The function `NewClock`: `NewClockAt(time.Now())`. -/
def NewClock (real : RealTime) : State Time :=
  NewClockAt (timeNow real) real

/-- The function `slicesNowFn`.  The closure captures `instants` and nothing
else, so it works over any environment.  A negative index passes the length
test and fails in the slice access. -/
def slicesNowFn {σ : Type} (instants : List Time) : NowCallbackFn σ :=
  fun i env =>
    if i ≥ (instants.length : Int) then (.panic exhausted, env)
    else if i < 0 then (.panic .indexOutOfRange, env)
    else
      match instants[i.toNat]? with
      | some t => (.ret t, env)
      | none => (.panic .indexOutOfRange, env)

/-- The function `NewClockFromSlice`: the time-source replays `instants`, the
sleep-effect is nil. -/
def NewClockFromSlice (instants : List Time) (real : RealTime) : State Unit :=
  { clock := some (NewClockFromCallbacks (some (slicesNowFn instants)) none),
    env := (), real := real }

/-! ## Methods (`clock.go`, lines 61-92) -/

/-- The call `c.nowCallback(i)`; calling a nil function value panics. -/
def callNow {σ : Type} (f : Option (NowCallbackFn σ)) (i : Int) (env : σ) :
    Outcome Time × σ :=
  match f with
  | none => (.panic .nilDereference, env)
  | some g => g i env

/-- The method `Now`.  On a nil receiver it reads the real clock.  Otherwise
it calls the time-source with the current index; the deferred `c.index++`
runs when the function leaves, by return or by panic. -/
def Now {σ : Type} (s : State σ) : Outcome Time × State σ :=
  match s.clock with
  | none => (.ret (timeNow s.real), s)
  | some c =>
    let r := callNow c.nowCallback c.index s.env
    (r.1, { s with clock := some { c with index := c.index + 1 }, env := r.2 })

/-- The method `Sleep`.  On a nil receiver it really sleeps.  With a
sleep-effect it calls it and then appends the duration to the log; without
one it does nothing. -/
def Sleep {σ : Type} (duration : Duration) (s : State σ) : Outcome Unit × State σ :=
  match s.clock with
  | none => (.ret (), { s with real := timeSleep duration s.real })
  | some c =>
    match c.sleepCallback with
    | none => (.ret (), s)
    | some f =>
      match f duration s.env with
      | (.ret _, env1) =>
        (.ret (), { s with
          clock := some { c with napDurations := c.napDurations ++ [duration] },
          env := env1 })
      | (.panic p, env1) => (.panic p, { s with env := env1 })

/-- The method `TimeSince`: `c.Now().Sub(before)`. -/
def TimeSince {σ : Type} (before : Time) (s : State σ) : Outcome Duration × State σ :=
  match Now s with
  | (.ret t, s1) => (.ret (t.Sub before), s1)
  | (.panic p, s1) => (.panic p, s1)

/-- The method `NapDurations`; it reads a field, so a nil receiver panics. -/
def NapDurations {σ : Type} (s : State σ) : Outcome (List Duration) × State σ :=
  match s.clock with
  | none => (.panic .nilDereference, s)
  | some c => (.ret c.napDurations, s)

/-- The method `ClearNapDurations`; it writes a field, so a nil receiver panics. -/
def ClearNapDurations {σ : Type} (s : State σ) : Outcome Unit × State σ :=
  match s.clock with
  | none => (.panic .nilDereference, s)
  | some c => (.ret (), { s with clock := some { c with napDurations := [] } })

/-! ## Sequences of calls -/

/-- One step of a client: a method call on the clock, or real time moving on
to the reading `t` between two calls. -/
inductive Step where
  | Now
  | Sleep (d : Duration)
  | TimeSince (before : Time)
  | NapDurations
  | ClearNapDurations
  | realTime (t : Time)
deriving DecidableEq, Repr

/-- What a step hands back to the client. -/
inductive Value where
  | instant (t : Time)
  | duration (d : Duration)
  | durations (ds : List Duration)
  | unit
deriving DecidableEq, Repr

/-- Change the value of a normal return and keep a panic. -/
def Outcome.map {α β : Type} (f : α → β) : Outcome α → Outcome β
  | .ret v => .ret (f v)
  | .panic p => .panic p

/-- Perform one step. -/
def step {σ : Type} (e : Step) (s : State σ) : Outcome Value × State σ :=
  match e with
  | .Now => let r := Now s; (r.1.map .instant, r.2)
  | .Sleep d => let r := Sleep d s; (r.1.map (fun _ => .unit), r.2)
  | .TimeSince b => let r := TimeSince b s; (r.1.map .duration, r.2)
  | .NapDurations => let r := NapDurations s; (r.1.map .durations, r.2)
  | .ClearNapDurations => let r := ClearNapDurations s; (r.1.map (fun _ => .unit), r.2)
  | .realTime t => (.ret .unit, { s with real := { s.real with now := t } })

/-- The state after a sequence of steps.  A panicking step leaves its state
behind and the client goes on (it recovers). -/
def exec {σ : Type} : List Step → State σ → State σ
  | [], s => s
  | e :: es, s => exec es (step e s).2

/-- The outcomes of a sequence of steps, in order. -/
def trace {σ : Type} : List Step → State σ → List (Outcome Value)
  | [], _ => []
  | e :: es, s => (step e s).1 :: trace es (step e s).2

/-- The outcomes of the `Now` calls of a sequence of steps, in order. -/
def nowOutcomes {σ : Type} : List Step → State σ → List (Outcome Value)
  | [], _ => []
  | .Now :: es, s => (step .Now s).1 :: nowOutcomes es (step .Now s).2
  | e :: es, s => nowOutcomes es (step e s).2

/-- The durations of the `Sleep` calls of a sequence of steps, in order. -/
def sleepDurations : List Step → List Duration
  | [] => []
  | .Sleep d :: es => d :: sleepDurations es
  | _ :: es => sleepDurations es

/-- The index field of the clock of a state, if the clock is not nil. -/
def indexOf {σ : Type} (s : State σ) : Option Int := s.clock.map (·.index)

/-- The log field of the clock of a state, if the clock is not nil. -/
def logOf {σ : Type} (s : State σ) : Option (List Duration) := s.clock.map (·.napDurations)

/-! ## States used in the proofs -/

/-- A state of a clock built by `NewClockFromSlice`: the index has some value
`i` reached by counting from zero, the log and the real clock are arbitrary. -/
def sliceState (instants : List Time) (i : Nat) (nap : List Duration) (real : RealTime) :
    State Unit :=
  { clock := some { index := (i : Int), nowCallback := some (slicesNowFn instants),
                    sleepCallback := none, napDurations := nap },
    env := (), real := real }

/-- What the replaying time-source answers at index `i`. -/
def sliceOutcome (instants : List Time) (i : Nat) : Outcome Time :=
  match instants[i]? with
  | some t => .ret t
  | none => .panic exhausted

/-- A state of a clock built by `NewClockAt(start)`: the captured variable
`sleeperNow` holds `cur`; the index, the log and the real clock are arbitrary. -/
def sleeperState (start cur : Time) (i : Int) (nap : List Duration) (real : RealTime) :
    State Time :=
  { clock := some { index := i,
                    nowCallback := some (NewDefaultSleeperCallbacks start).1.1,
                    sleepCallback := some (NewDefaultSleeperCallbacks start).1.2,
                    napDurations := nap },
    env := cur, real := real }

/-- The variable `sleeperNow` after a step, given its value before. -/
def sleeperAfter (cur : Time) : Step → Time
  | .Sleep d => cur.Add d
  | _ => cur

/-- The real clock used in the examples: it reads 1000 and nobody has slept. -/
def sampleReal : RealTime := { now := ⟨1000⟩, sleeps := [] }

/-! ## Instrumented callbacks

The test `TestNewClockFromCallbacks` watches its callbacks through counters
and last-argument variables they update.  The same device is used here: next
to the variables `σ` of the callbacks themselves the environment carries the
list of arguments each callback has been called with. -/

/-- The arguments the two callbacks have been called with so far, in order. -/
structure CallLog where
  nowArgs : List Int
  sleepArgs : List Duration
deriving DecidableEq, Repr

/-- A time-source that notes the index it is called with and then behaves as `f`. -/
def loggedNow {σ : Type} (f : NowCallbackFn σ) : NowCallbackFn (σ × CallLog) :=
  fun i env =>
    let r := f i env.1
    (r.1, (r.2, { env.2 with nowArgs := env.2.nowArgs ++ [i] }))

/-- A sleep-effect that notes the duration it is called with and then behaves as `g`. -/
def loggedSleep {σ : Type} (g : SleepCallbackFn σ) : SleepCallbackFn (σ × CallLog) :=
  fun d env =>
    let r := g d env.1
    (r.1, (r.2, { env.2 with sleepArgs := env.2.sleepArgs ++ [d] }))

/-- A state of a clock whose callbacks are instrumented; the sleep-effect may be nil. -/
def observedState {σ : Type} (f : NowCallbackFn σ) (g : Option (SleepCallbackFn σ))
    (i : Int) (nap : List Duration) (e : σ) (l : CallLog) (real : RealTime) :
    State (σ × CallLog) :=
  { clock := some { index := i, nowCallback := some (loggedNow f),
                    sleepCallback := g.map loggedSleep, napDurations := nap },
    env := (e, l), real := real }

/-- The clock `NewClockFromCallbacks(nowFn, sleepFn)` with instrumented
callbacks, before any call. -/
def observedClock {σ : Type} (f : NowCallbackFn σ) (g : Option (SleepCallbackFn σ))
    (e : σ) (real : RealTime) : State (σ × CallLog) :=
  { clock := some (NewClockFromCallbacks (some (loggedNow f)) (g.map loggedSleep)),
    env := (e, { nowArgs := [], sleepArgs := [] }), real := real }

/-- Whether a step asks the clock for the time: `Now` and `TimeSince` do. -/
def isQuery : Step → Bool
  | .Now => true
  | .TimeSince _ => true
  | _ => false

/-- The number of time queries among some steps. -/
def queries (es : List Step) : Nat := es.countP isQuery

/-- The Go expression `-d` on a duration: negation in `int64`. -/
def negDuration (d : Duration) : Duration := wrapInt64 (-d)

/-- A state whose receiver is the nil clock, as in `TestClock_Now` and
`TestClock_Sleep`. -/
def nilClock (real : RealTime) : State Unit := { clock := none, env := (), real := real }

/-- A sleep-effect that always panics. -/
def failingSleep : SleepCallbackFn Unit := fun _ env => (.panic (.message "no sleep"), env)

/-- A fresh clock with no time-source and the sleep-effect that always panics. -/
def failingSleepClock : State Unit :=
  { clock := some (NewClockFromCallbacks none (some failingSleep)),
    env := (), real := sampleReal }

/-! ## Machine arithmetic

The definitions above compute with unbounded integers.  The definitions of
this section are the same code with the arithmetic of the machine: the index
is a Go `int` (64 bits), so `c.index++` wraps from the greatest `int` to the
least, and `time.Time` keeps a 64-bit count of seconds and a count of
nanoseconds below one second, so `Time.Add` stops at the ends of that range.
An instant `t` is read as `t.ns` nanoseconds after the origin from which
`time.Time` counts its seconds.  The methods `Sleep`, `NapDurations` and
`ClearNapDurations` do no arithmetic and are shared. -/

namespace machine

/-- The greatest Go `int`. -/
def maxInt : Int := 9223372036854775807

/-- The least Go `int`. -/
def minInt : Int := -9223372036854775808

/-- Go's `a / b` on integers for a positive `b`: the quotient truncated
toward zero. -/
def quo (a b : Int) : Int := if 0 ≤ a then a / b else -((-a) / b)

/-- Go's `a % b` on integers for a positive `b`: the remainder that goes with
the truncated quotient. -/
def rem (a b : Int) : Int := a - b * quo a b

/-- The seconds of an instant, `t.sec()`. -/
def sec (t : Time) : Int := t.ns / 1000000000

/-- The nanoseconds within the second of an instant, `t.nsec()`. -/
def nsec (t : Time) : Int := t.ns % 1000000000

/-- The library's `addSec` on the count of seconds: the sum, or the end of
the range on the side of `d` when the 64-bit sum overflows. -/
def addSec (ext d : Int) : Int :=
  let sum := wrapInt64 (ext + d)
  if (sum > ext ↔ d > 0) then sum
  else if d > 0 then 9223372036854775807
  else -9223372036854775807

/-- The library's `t.Add(d)`: split `d` into seconds and nanoseconds, carry
between the two, and add the seconds with `addSec`. -/
def Time.Add (t : Time) (d : Duration) : Time :=
  let dsec := quo d 1000000000
  let n := nsec t + rem d 1000000000
  if n ≥ 1000000000 then ⟨addSec (sec t) (dsec + 1) * 1000000000 + (n - 1000000000)⟩
  else if n < 0 then ⟨addSec (sec t) (dsec - 1) * 1000000000 + (n + 1000000000)⟩
  else ⟨addSec (sec t) dsec * 1000000000 + n⟩

/-- The library's `t.Sub(u)`: the 64-bit difference when adding it to `u`
gives `t` back, else the least or the greatest duration. -/
def Time.Sub (t u : Time) : Duration :=
  let d : Duration := wrapInt64 (t.ns - u.ns)
  if machine.Time.Add u d = t then d
  else if t.ns < u.ns then minDuration
  else maxDuration

/-- Whether an instant is within the range of `time.Time`. -/
def inRange (t : Time) : Prop := minInt ≤ sec t ∧ sec t ≤ maxInt

/-- Whether adding the durations one after the other to the instant `t`
stays within the range of `time.Time` at every stage. -/
def staysInRange (t : Time) : List Duration → Prop
  | [] => True
  | d :: ds => inRange ⟨t.ns + d⟩ ∧ staysInRange ⟨t.ns + d⟩ ds

/-- The function `NewDefaultSleeperCallbacks`, with the library's `Add`. -/
def NewDefaultSleeperCallbacks (start : Time) :
    (NowCallbackFn Time × SleepCallbackFn Time) × Time :=
  let nowFn : NowCallbackFn Time := fun _ sleeperNow => (.ret sleeperNow, sleeperNow)
  let sleepFn : SleepCallbackFn Time :=
    fun d sleeperNow => (.ret (), machine.Time.Add sleeperNow d)
  ((nowFn, sleepFn), start)

/-- The function `NewClockAt`. -/
def NewClockAt (instant : Time) (real : RealTime) : State Time :=
  let fns := machine.NewDefaultSleeperCallbacks instant
  { clock := some (NewClockFromCallbacks (some fns.1.1) (some fns.1.2)),
    env := fns.2, real := real }

/-- The method `Now`, the deferred `c.index++` being an increment of a Go
`int`. -/
def Now {σ : Type} (s : State σ) : Outcome Time × State σ :=
  match s.clock with
  | none => (.ret (timeNow s.real), s)
  | some c =>
    let r := callNow c.nowCallback c.index s.env
    (r.1, { s with clock := some { c with index := wrapInt64 (c.index + 1) }, env := r.2 })

/-- The method `TimeSince`: `c.Now().Sub(before)`. -/
def TimeSince {σ : Type} (before : Time) (s : State σ) : Outcome Duration × State σ :=
  match machine.Now s with
  | (.ret t, s1) => (.ret (machine.Time.Sub t before), s1)
  | (.panic p, s1) => (.panic p, s1)

/-- Perform one step. -/
def step {σ : Type} (e : Step) (s : State σ) : Outcome Value × State σ :=
  match e with
  | .Now => let r := machine.Now s; (r.1.map .instant, r.2)
  | .Sleep d => let r := Sleep d s; (r.1.map (fun _ => .unit), r.2)
  | .TimeSince b => let r := machine.TimeSince b s; (r.1.map .duration, r.2)
  | .NapDurations => let r := NapDurations s; (r.1.map .durations, r.2)
  | .ClearNapDurations => let r := ClearNapDurations s; (r.1.map (fun _ => .unit), r.2)
  | .realTime t => (.ret .unit, { s with real := { s.real with now := t } })

/-- The state after a sequence of steps; the client recovers from a panic
and goes on. -/
def exec {σ : Type} : List Step → State σ → State σ
  | [], s => s
  | e :: es, s => machine.exec es (machine.step e s).2

/-- The outcomes of a sequence of steps, in order. -/
def trace {σ : Type} : List Step → State σ → List (Outcome Value)
  | [], _ => []
  | e :: es, s => (machine.step e s).1 :: machine.trace es (machine.step e s).2

end machine

/-- A state of a clock built by `machine.NewClockAt(start)`: the captured
variable `sleeperNow` holds `cur`; the rest is arbitrary. -/
def machineSleeperState (start cur : Time) (i : Int) (nap : List Duration)
    (real : RealTime) : State Time :=
  { clock := some { index := i,
                    nowCallback := some (machine.NewDefaultSleeperCallbacks start).1.1,
                    sleepCallback := some (machine.NewDefaultSleeperCallbacks start).1.2,
                    napDurations := nap },
    env := cur, real := real }

/-- The variable `sleeperNow` after a step, with the library's `Add`. -/
def machineSleeperAfter (cur : Time) : Step → Time
  | .Sleep d => machine.Time.Add cur d
  | _ => cur

/-- A run of `n` calls of `Now`. -/
def manyNows (n : Nat) : List Step := List.replicate n Step.Now

/-- A time-source that never fails: it returns the same instant at every
index, as the one of `TestNewClockFromCallbacks` does. -/
def fixedNow (t : Time) : NowCallbackFn Unit := fun _ env => (.ret t, env)

/-! ## Basic facts about the methods -/

/-- On a clock that is not nil, `Now` is the time-source call followed by the
increment of the index. -/
theorem Now_some {σ : Type} (s : State σ) (c : Clock σ) (hc : s.clock = some c) :
    Now s = ((callNow c.nowCallback c.index s.env).1,
      { s with clock := some { c with index := c.index + 1 },
               env := (callNow c.nowCallback c.index s.env).2 }) := by
  unfold Now
  rw [hc]

theorem NewClockFromSlice_eq (instants : List Time) (real : RealTime) :
    NewClockFromSlice instants real = sliceState instants 0 [] real := rfl

theorem slicesNowFn_natCast {σ : Type} (instants : List Time) (i : Nat) (env : σ) :
    slicesNowFn instants (i : Int) env = (sliceOutcome instants i, env) := by
  unfold slicesNowFn sliceOutcome
  by_cases h : i < instants.length
  · have h1 : ¬ ((i : Int) ≥ (instants.length : Int)) := by omega
    have h2 : ¬ ((i : Int) < 0) := by omega
    simp only [h1, h2, if_false, Int.toNat_ofNat, List.getElem?_eq_getElem h]
  · have h1 : (i : Int) ≥ (instants.length : Int) := by omega
    have h3 : instants[i]? = none := List.getElem?_eq_none (by omega)
    simp only [h1, if_true, h3]

theorem Now_sliceState (instants : List Time) (i : Nat) (nap : List Duration)
    (real : RealTime) :
    Now (sliceState instants i nap real) =
      (sliceOutcome instants i, sliceState instants (i + 1) nap real) := by
  rw [Now_some _ _ rfl]
  simp only [sliceState, callNow, slicesNowFn_natCast, Nat.cast_add, Nat.cast_one]

theorem step_sliceState (instants : List Time) (e : Step) (i : Nat) (nap : List Duration)
    (real : RealTime) :
    ∃ j nap1 real1, i ≤ j ∧
      (step e (sliceState instants i nap real)).2 = sliceState instants j nap1 real1 := by
  cases e with
  | Now => exact ⟨i + 1, nap, real, by omega, by simp [step, Now_sliceState]⟩
  | Sleep d => exact ⟨i, nap, real, le_refl _, rfl⟩
  | TimeSince b =>
    refine ⟨i + 1, nap, real, by omega, ?_⟩
    simp only [step, TimeSince, Now_sliceState]
    cases sliceOutcome instants i <;> rfl
  | NapDurations => exact ⟨i, nap, real, le_refl _, rfl⟩
  | ClearNapDurations => exact ⟨i, [], real, le_refl _, rfl⟩
  | realTime t => exact ⟨i, nap, { real with now := t }, le_refl _, rfl⟩

theorem exec_sliceState (instants : List Time) (es : List Step) (i : Nat)
    (nap : List Duration) (real : RealTime) :
    ∃ j nap1 real1, i ≤ j ∧
      exec es (sliceState instants i nap real) = sliceState instants j nap1 real1 := by
  induction es generalizing i nap real with
  | nil => exact ⟨i, nap, real, le_refl _, rfl⟩
  | cons e es ih =>
    obtain ⟨j, nap1, real1, hij, hstep⟩ := step_sliceState instants e i nap real
    obtain ⟨k, nap2, real2, hjk, hexec⟩ := ih j nap1 real1
    exact ⟨k, nap2, real2, le_trans hij hjk, by simp only [exec, hstep, hexec]⟩

theorem nowOutcomes_sliceState (instants : List Time) (es : List Step)
    (hes : ∀ b, Step.TimeSince b ∉ es) (i : Nat) (nap : List Duration) (real : RealTime)
    (k : Nat) (hk : k < es.count Step.Now) :
    (nowOutcomes es (sliceState instants i nap real))[k]? =
      some ((sliceOutcome instants (i + k)).map Value.instant) := by
  induction es generalizing i nap real k with
  | nil => simp at hk
  | cons e es ih =>
    have hes1 : ∀ b, Step.TimeSince b ∉ es := fun b hb => hes b (List.mem_cons_of_mem _ hb)
    cases e with
    | Now =>
      simp only [nowOutcomes, step, Now_sliceState]
      cases k with
      | zero => simp
      | succ k =>
        have hk1 : k < es.count Step.Now := by
          simp only [List.count_cons_self] at hk
          omega
        rw [List.getElem?_cons_succ, ih hes1 (i + 1) nap real k hk1]
        congr 3
        omega
    | Sleep d =>
      have hk1 : k < es.count Step.Now := by
        rwa [List.count_cons_of_ne (by simp)] at hk
      simpa only [nowOutcomes] using ih hes1 i nap real k hk1
    | TimeSince b => exact absurd (List.mem_cons_self _ _) (hes b)
    | NapDurations =>
      have hk1 : k < es.count Step.Now := by
        rwa [List.count_cons_of_ne (by simp)] at hk
      simpa only [nowOutcomes] using ih hes1 i nap real k hk1
    | ClearNapDurations =>
      have hk1 : k < es.count Step.Now := by
        rwa [List.count_cons_of_ne (by simp)] at hk
      simpa only [nowOutcomes] using ih hes1 i [] real k hk1
    | realTime t =>
      have hk1 : k < es.count Step.Now := by
        rwa [List.count_cons_of_ne (by simp)] at hk
      simpa only [nowOutcomes] using ih hes1 i nap { real with now := t } k hk1

theorem sliceOutcome_append_length (pre suf : List Time) :
    sliceOutcome (pre ++ suf) pre.length =
      match suf with
      | [] => .panic exhausted
      | t :: _ => .ret t := by
  unfold sliceOutcome
  cases suf with
  | nil => simp
  | cons t suf => simp [List.getElem?_append_right (le_refl pre.length)]

theorem trace_Now_sliceState (pre suf : List Time) (nap : List Duration) (real : RealTime) :
    trace (List.replicate (suf.length + 1) Step.Now)
        (sliceState (pre ++ suf) pre.length nap real) =
      suf.map (fun t => Outcome.ret (Value.instant t)) ++ [Outcome.panic exhausted] := by
  induction suf generalizing pre with
  | nil =>
    simp only [List.length_nil, Nat.zero_add, List.replicate_one, trace, step, Now_sliceState,
      sliceOutcome_append_length, Outcome.map, List.map_nil, List.nil_append]
  | cons t suf ih =>
    have h := ih (pre ++ [t])
    simp only [List.append_assoc, List.singleton_append, List.length_append,
      List.length_singleton] at h
    simp only [List.length_cons, List.replicate_succ, trace, step, Now_sliceState,
      sliceOutcome_append_length, Outcome.map, List.map_cons, List.cons_append] at h ⊢
    rw [h]

theorem Now_slicesNowFn_exhausted_iff {σ : Type} (instants : List Time) (s : State σ)
    (c : Clock σ) (hc : s.clock = some c) (hf : c.nowCallback = some (slicesNowFn instants)) :
    (Now s).1 = .panic exhausted ↔ (instants.length : Int) ≤ c.index := by
  rw [Now_some s c hc, hf]
  simp only [callNow, slicesNowFn]
  by_cases h1 : c.index ≥ (instants.length : Int)
  · simp [h1]
  · simp only [h1, if_false]
    have hne : ¬ ((instants.length : Int) ≤ c.index) := h1
    by_cases h2 : c.index < 0
    · simp [h2, hne, exhausted]
    · simp only [h2, if_false]
      cases instants[c.index.toNat]? <;> simp [hne, exhausted]

theorem NewClockAt_eq (instant : Time) (real : RealTime) :
    NewClockAt instant real = sleeperState instant instant 0 [] real := rfl

theorem Time.Add_zero (t : Time) : t.Add 0 = t := by
  simp [Time.Add]

theorem Time.Add_Add (t : Time) (a b : Duration) : (t.Add a).Add b = t.Add (a + b) := by
  simp [Time.Add, add_assoc]

theorem step_sleeperState (start cur : Time) (e : Step) (i : Int) (nap : List Duration)
    (real : RealTime) :
    ∃ j nap1 real1,
      (step e (sleeperState start cur i nap real)).2 =
        sleeperState start (sleeperAfter cur e) j nap1 real1 := by
  cases e with
  | Now => exact ⟨i + 1, nap, real, rfl⟩
  | Sleep d => exact ⟨i, nap ++ [d], real, rfl⟩
  | TimeSince b => exact ⟨i + 1, nap, real, rfl⟩
  | NapDurations => exact ⟨i, nap, real, rfl⟩
  | ClearNapDurations => exact ⟨i, [], real, rfl⟩
  | realTime t => exact ⟨i, nap, { real with now := t }, rfl⟩

theorem exec_sleeperState (start cur : Time) (es : List Step) (i : Int)
    (nap : List Duration) (real : RealTime) :
    ∃ j nap1 real1,
      exec es (sleeperState start cur i nap real) =
        sleeperState start (cur.Add (sleepDurations es).sum) j nap1 real1 := by
  induction es generalizing cur i nap real with
  | nil => exact ⟨i, nap, real, by simp [exec, sleepDurations, Time.Add_zero]⟩
  | cons e es ih =>
    obtain ⟨j, nap1, real1, hstep⟩ := step_sleeperState start cur e i nap real
    obtain ⟨k, nap2, real2, hexec⟩ := ih (sleeperAfter cur e) j nap1 real1
    refine ⟨k, nap2, real2, ?_⟩
    simp only [exec, hstep, hexec]
    cases e <;> simp [sleeperAfter, sleepDurations, Time.Add_Add]

theorem exec_append {σ : Type} (es fs : List Step) (s : State σ) :
    exec (es ++ fs) s = exec fs (exec es s) := by
  induction es generalizing s with
  | nil => rfl
  | cons e es ih => exact ih (step e s).2

theorem trace_append {σ : Type} (es fs : List Step) (s : State σ) :
    trace (es ++ fs) s = trace es s ++ trace fs (exec es s) := by
  induction es generalizing s with
  | nil => rfl
  | cons e es ih =>
    show (step e s).1 :: trace (es ++ fs) (step e s).2 = _
    rw [ih]
    rfl

theorem trace_length {σ : Type} (es : List Step) (s : State σ) :
    (trace es s).length = es.length := by
  induction es generalizing s with
  | nil => rfl
  | cons e es ih => simp only [trace, List.length_cons, ih]

/-- The outcome at the position just after `pre` is the outcome of the step
there in the state `pre` leads to. -/
theorem trace_getElem?_append_cons {σ : Type} (pre post : List Step) (e : Step)
    (s : State σ) :
    (trace (pre ++ e :: post) s)[pre.length]? = some (step e (exec pre s)).1 := by
  rw [trace_append, List.getElem?_append_right (by rw [trace_length]), trace_length]
  simp [trace]

theorem sleepDurations_append (es fs : List Step) :
    sleepDurations (es ++ fs) = sleepDurations es ++ sleepDurations fs := by
  induction es with
  | nil => rfl
  | cons e es ih => cases e <;> simp [sleepDurations, ih]

theorem sleepDurations_eq_nil (es : List Step) (h : ∀ d, Step.Sleep d ∉ es) :
    sleepDurations es = [] := by
  induction es with
  | nil => rfl
  | cons e es ih =>
    have h1 : ∀ d, Step.Sleep d ∉ es := fun d hd => h d (List.mem_cons_of_mem _ hd)
    cases e with
    | Sleep d => exact absurd (List.mem_cons_self _ _) (h d)
    | _ => simpa [sleepDurations] using ih h1

/-- On a clock built by `NewClockAt(T)`, a `Now` placed after the steps `pre`
returns `T` moved by the sum of the durations slept in `pre`. -/
theorem Now_after_NewClockAt (T : Time) (real : RealTime) (pre : List Step) :
    (step Step.Now (exec pre (NewClockAt T real))).1 =
      .ret (.instant (T.Add (sleepDurations pre).sum)) := by
  obtain ⟨j, nap1, real1, hexec⟩ := exec_sleeperState T T pre 0 [] real
  rw [NewClockAt_eq, hexec]
  rfl

theorem TimeSince_eq {σ : Type} (before : Time) (s : State σ) :
    TimeSince before s = ((Now s).1.map (fun t => t.Sub before), (Now s).2) := by
  unfold TimeSince
  rcases Now s with ⟨r, s1⟩
  cases r <;> rfl

/-- With a sleep-effect that returns normally, `Sleep` appends to the log. -/
theorem Sleep_ret {σ : Type} (d : Duration) (s : State σ) (c : Clock σ)
    (f : SleepCallbackFn σ) (env1 : σ) (hc : s.clock = some c)
    (hf : c.sleepCallback = some f) (hret : f d s.env = (.ret (), env1)) :
    Sleep d s = (.ret (), { s with
      clock := some { c with napDurations := c.napDurations ++ [d] }, env := env1 }) := by
  unfold Sleep
  rw [hc]
  simp only [hf, hret]

/-- With a sleep-effect that panics, `Sleep` panics and the clock is as before. -/
theorem Sleep_panic {σ : Type} (d : Duration) (s : State σ) (c : Clock σ)
    (f : SleepCallbackFn σ) (p : PanicValue) (env1 : σ) (hc : s.clock = some c)
    (hf : c.sleepCallback = some f) (hpanic : f d s.env = (.panic p, env1)) :
    Sleep d s = (.panic p, { s with env := env1 }) := by
  unfold Sleep
  rw [hc]
  simp only [hf, hpanic]

/-- Without a sleep-effect, `Sleep` on a clock that is not nil does nothing. -/
theorem Sleep_no_callback {σ : Type} (d : Duration) (s : State σ) (c : Clock σ)
    (hc : s.clock = some c) (hf : c.sleepCallback = none) :
    Sleep d s = (.ret (), s) := by
  unfold Sleep
  rw [hc]
  simp only [hf]

/-- The log after steps without `ClearNapDurations` whose `Sleep` calls all
return normally: the log before, followed by the durations slept. -/
theorem log_after_steps {σ : Type} (es : List Step) (s : State σ) (c : Clock σ)
    (f : SleepCallbackFn σ) (hc : s.clock = some c) (hf : c.sleepCallback = some f)
    (hclear : Step.ClearNapDurations ∉ es)
    (hok : ∀ (n : Nat) (d : Duration), es[n]? = some (Step.Sleep d) →
      (trace es s)[n]? = some (Outcome.ret Value.unit)) :
    ∃ c1, (exec es s).clock = some c1 ∧ c1.sleepCallback = some f ∧
      c1.napDurations = c.napDurations ++ sleepDurations es := by
  induction es generalizing s c with
  | nil => exact ⟨c, hc, hf, by simp [sleepDurations]⟩
  | cons e es ih =>
    have hclear1 : Step.ClearNapDurations ∉ es := fun h => hclear (List.mem_cons_of_mem _ h)
    have hok1 : ∀ (n : Nat) (d : Duration), es[n]? = some (Step.Sleep d) →
        (trace es (step e s).2)[n]? = some (Outcome.ret Value.unit) := fun n d hn => by
      have h := hok (n + 1) d (by simpa using hn)
      simpa [trace] using h
    cases e with
    | Now =>
      have hs : (step Step.Now s).2 =
          { s with clock := some { c with index := c.index + 1 },
                   env := (callNow c.nowCallback c.index s.env).2 } := by
        simp only [step, Now_some s c hc]
      obtain ⟨c1, h1, h2, h3⟩ := ih (step Step.Now s).2 { c with index := c.index + 1 }
        (by rw [hs]) hf hclear1 hok1
      exact ⟨c1, h1, h2, by simpa [sleepDurations] using h3⟩
    | TimeSince b =>
      have hs : (step (Step.TimeSince b) s).2 =
          { s with clock := some { c with index := c.index + 1 },
                   env := (callNow c.nowCallback c.index s.env).2 } := by
        simp only [step, TimeSince_eq, Now_some s c hc]
      obtain ⟨c1, h1, h2, h3⟩ := ih (step (Step.TimeSince b) s).2
        { c with index := c.index + 1 } (by rw [hs]) hf hclear1 hok1
      exact ⟨c1, h1, h2, by simpa [sleepDurations] using h3⟩
    | NapDurations =>
      have hs : (step Step.NapDurations s).2 = s := by
        simp only [step, NapDurations, hc]
      obtain ⟨c1, h1, h2, h3⟩ := ih (step Step.NapDurations s).2 c (by rw [hs, hc]) hf
        hclear1 hok1
      exact ⟨c1, h1, h2, by simpa [sleepDurations] using h3⟩
    | ClearNapDurations => exact absurd (List.mem_cons_self _ _) hclear
    | realTime t =>
      obtain ⟨c1, h1, h2, h3⟩ := ih (step (Step.realTime t) s).2 c hc hf hclear1 hok1
      exact ⟨c1, h1, h2, by simpa [sleepDurations] using h3⟩
    | Sleep d =>
      have h0 := hok 0 d (by simp)
      rcases hfd : f d s.env with ⟨r, env1⟩
      cases r with
      | panic p =>
        simp [trace, step, Sleep_panic d s c f p env1 hc hf hfd, Outcome.map] at h0
      | ret u =>
        have hs : (step (Step.Sleep d) s).2 =
            { s with clock := some { c with napDurations := c.napDurations ++ [d] },
                     env := env1 } := by
          simp only [step, Sleep_ret d s c f env1 hc hf hfd]
        obtain ⟨c1, h1, h2, h3⟩ := ih (step (Step.Sleep d) s).2
          { c with napDurations := c.napDurations ++ [d] } (by rw [hs]) hf hclear1 hok1
        exact ⟨c1, h1, h2, by simpa [sleepDurations] using h3⟩

/-- On a clock built by `NewClockAt` every `Sleep` returns normally: the
default sleep-effect never fails. -/
theorem trace_sleeperState_Sleep (start cur : Time) (es : List Step) (i : Int)
    (nap : List Duration) (real : RealTime) (n : Nat) (d : Duration)
    (hn : es[n]? = some (Step.Sleep d)) :
    (trace es (sleeperState start cur i nap real))[n]? =
      some (Outcome.ret Value.unit) := by
  induction es generalizing cur i nap real n with
  | nil => simp at hn
  | cons e es ih =>
    cases n with
    | zero =>
      have he : e = Step.Sleep d := by simpa using hn
      subst he
      simp [trace, step, Sleep, sleeperState, NewDefaultSleeperCallbacks, Outcome.map]
    | succ n =>
      obtain ⟨j, nap1, real1, hstep⟩ := step_sleeperState start cur e i nap real
      have hn1 : es[n]? = some (Step.Sleep d) := by simpa using hn
      simpa [trace, hstep] using ih (sleeperAfter cur e) j nap1 real1 n hn1

theorem wrapInt64_of_fits (x : Int) (hlo : minDuration ≤ x) (hhi : x ≤ maxDuration) :
    wrapInt64 x = x := by
  have h1 : -(2 : Int) ^ 63 ≤ x := hlo
  have h2 : x ≤ (2 : Int) ^ 63 - 1 := hhi
  unfold wrapInt64
  rw [Int.emod_eq_of_lt (by omega) (by omega)]
  omega

/-- When the difference fits a duration, `Sub` is the difference. -/
theorem Time.Sub_of_fits (t u : Time) (hlo : minDuration ≤ t.ns - u.ns)
    (hhi : t.ns - u.ns ≤ maxDuration) : t.Sub u = t.ns - u.ns := by
  unfold Time.Sub
  simp only [wrapInt64_of_fits _ hlo hhi, Time.Add]
  have h : (⟨u.ns + (t.ns - u.ns)⟩ : Time) = t := by
    cases t
    simp
  simp [h]

/-- Within the range of durations other than the least one, the Go
negation is the negation. -/
theorem negDuration_of_fits (d : Duration) (hlo : minDuration < d) (hhi : d ≤ maxDuration) :
    negDuration d = -d := by
  have key : ∀ x : Int, -(2 : Int) ^ 63 < x → x ≤ (2 : Int) ^ 63 - 1 →
      -(2 : Int) ^ 63 ≤ -x ∧ -x ≤ (2 : Int) ^ 63 - 1 :=
    fun x a b => ⟨by omega, by omega⟩
  unfold negDuration
  exact wrapInt64_of_fits (-d) (key d hlo hhi).1 (key d hlo hhi).2

/-- On a fresh clock built by `NewClockAt(T)`, `TimeSince` subtracts from `T`. -/
theorem TimeSince_NewClockAt (T before : Time) (real : RealTime) :
    TimeSince before (NewClockAt T real) =
      (.ret (T.Sub before), sleeperState T T 1 [] real) := by
  rw [TimeSince_eq]
  rfl

/-- The edge of the Go negation: `-d` for the least duration is the least
duration again, so `T.Add(-d)` lies before `T` and not after it, and the
difference saturates. -/
theorem TimeSince_Add_negDuration_minDuration (T : Time) (real : RealTime) :
    (TimeSince (T.Add (negDuration minDuration)) (NewClockAt T real)).1 =
      .ret maxDuration := by
  rw [TimeSince_NewClockAt]
  have hneg : negDuration minDuration = -(2 : Int) ^ 63 := by
    unfold negDuration wrapInt64 minDuration
    norm_num
  rw [hneg]
  unfold Time.Sub Time.Add wrapInt64
  have h1 : (T.ns - (T.ns + -(2 : Int) ^ 63) + 2 ^ 63) % 2 ^ 64 - 2 ^ 63 =
      -(2 : Int) ^ 63 := by
    have : T.ns - (T.ns + -(2 : Int) ^ 63) + 2 ^ 63 = 2 ^ 64 := by ring
    rw [this]
    norm_num
  simp only [h1]
  have h2 : (⟨T.ns + -(2 : Int) ^ 63 + -(2 : Int) ^ 63⟩ : Time) ≠ T := by
    intro h
    have := congrArg Time.ns h
    simp only at this
    omega
  have h3 : ¬ (T.ns < T.ns + -(2 : Int) ^ 63) := by omega
  simp only [h2, h3, if_false]

/-- What a step does to the index: a time query adds one, any other step
leaves it alone; on a nil clock there is no index. -/
theorem indexOf_step {σ : Type} (st : Step) (s : State σ) :
    indexOf (step st s).2 = (indexOf s).map (fun i => if isQuery st then i + 1 else i) := by
  cases hc : s.clock with
  | none =>
    cases st <;> simp [step, Now, Sleep, TimeSince_eq, NapDurations, ClearNapDurations,
      indexOf, hc]
  | some c =>
    cases st with
    | Now => simp [step, Now_some s c hc, indexOf, hc, isQuery]
    | TimeSince b => simp [step, TimeSince_eq, Now_some s c hc, indexOf, hc, isQuery]
    | NapDurations => simp [step, NapDurations, indexOf, hc, isQuery]
    | ClearNapDurations => simp [step, ClearNapDurations, indexOf, hc, isQuery]
    | realTime t => simp [step, indexOf, hc, isQuery]
    | Sleep d =>
      cases hf : c.sleepCallback with
      | none => simp [step, Sleep_no_callback d s c hc hf, indexOf, hc, isQuery]
      | some f =>
        rcases hfd : f d s.env with ⟨r, env1⟩
        cases r with
        | ret u => simp [step, Sleep_ret d s c f env1 hc hf hfd, indexOf, hc, isQuery]
        | panic p => simp [step, Sleep_panic d s c f p env1 hc hf hfd, indexOf, hc, isQuery]

theorem observedClock_eq {σ : Type} (f : NowCallbackFn σ) (g : Option (SleepCallbackFn σ))
    (e : σ) (real : RealTime) :
    observedClock f g e real =
      observedState f g 0 [] e { nowArgs := [], sleepArgs := [] } real := rfl

/-! ## Facts about the machine arithmetic -/

theorem wrapInt64_eq_self (x : Int) (hlo : -9223372036854775808 ≤ x)
    (hhi : x ≤ 9223372036854775807) : wrapInt64 x = x := by
  unfold wrapInt64
  omega

/-- Wrapping an intermediate sum does not change the wrapped total. -/
theorem wrapInt64_wrapInt64_add (x y : Int) :
    wrapInt64 (wrapInt64 x + y) = wrapInt64 (x + y) := by
  unfold wrapInt64
  omega

theorem machine_addSec_of_fits (ext d : Int) (hlo : -9223372036854775808 ≤ ext + d)
    (hhi : ext + d ≤ 9223372036854775807) : machine.addSec ext d = ext + d := by
  unfold machine.addSec
  have hiff : (ext + d > ext ↔ d > 0) := by
    constructor <;> intro h <;> omega
  simp only [wrapInt64_eq_self (ext + d) hlo hhi, hiff, if_true]

/-- While the result is within the range of `time.Time`, the library's `Add`
is the addition of the duration. -/
theorem machine_Time_Add_of_fits (t : Time) (d : Duration)
    (h : machine.inRange ⟨t.ns + d⟩) : machine.Time.Add t d = ⟨t.ns + d⟩ := by
  obtain ⟨h1, h2⟩ := h
  have hlo : (-9223372036854775808 : Int) ≤ (t.ns + d) / 1000000000 := h1
  have hhi : (t.ns + d) / 1000000000 ≤ (9223372036854775807 : Int) := h2
  have key : ∀ (a e q : Int),
      (0 ≤ e → q = e / 1000000000) → (e < 0 → q = -((-e) / 1000000000)) →
      -9223372036854775808 ≤ (a + e) / 1000000000 →
      (a + e) / 1000000000 ≤ 9223372036854775807 →
      (a % 1000000000 + (e - 1000000000 * q) ≥ 1000000000 →
        -9223372036854775808 ≤ a / 1000000000 + (q + 1) ∧
        a / 1000000000 + (q + 1) ≤ 9223372036854775807 ∧
        (a / 1000000000 + (q + 1)) * 1000000000 +
          (a % 1000000000 + (e - 1000000000 * q) - 1000000000) = a + e) ∧
      (a % 1000000000 + (e - 1000000000 * q) < 0 →
        -9223372036854775808 ≤ a / 1000000000 + (q - 1) ∧
        a / 1000000000 + (q - 1) ≤ 9223372036854775807 ∧
        (a / 1000000000 + (q - 1)) * 1000000000 +
          (a % 1000000000 + (e - 1000000000 * q) + 1000000000) = a + e) ∧
      (¬ a % 1000000000 + (e - 1000000000 * q) ≥ 1000000000 →
        ¬ a % 1000000000 + (e - 1000000000 * q) < 0 →
        -9223372036854775808 ≤ a / 1000000000 + q ∧
        a / 1000000000 + q ≤ 9223372036854775807 ∧
        (a / 1000000000 + q) * 1000000000 +
          (a % 1000000000 + (e - 1000000000 * q)) = a + e) := by
    intro a e q hq1 hq2 b1 b2
    by_cases he : 0 ≤ e
    · have hq := hq1 he
      subst hq
      refine ⟨fun _ => ?_, fun _ => ?_, fun _ _ => ?_⟩ <;> omega
    · have hq := hq2 (by omega)
      subst hq
      refine ⟨fun _ => ?_, fun _ => ?_, fun _ _ => ?_⟩ <;> omega
  have hquo1 : 0 ≤ (d : Int) → machine.quo d 1000000000 = d / 1000000000 := fun hd => by
    simp only [machine.quo, hd, if_true]
  have hquo2 : (d : Int) < 0 → machine.quo d 1000000000 = -((-d) / 1000000000) :=
    fun hd => by
      have hn : ¬ (0 ≤ (d : Int)) := not_le.mpr hd
      simp only [machine.quo, hn, if_false]
  obtain ⟨k1, k2, k3⟩ := key t.ns d (machine.quo d 1000000000) hquo1 hquo2 hlo hhi
  unfold machine.Time.Add machine.rem machine.sec machine.nsec
  simp only []
  split_ifs with c1 c2
  · obtain ⟨a1, a2, a3⟩ := k1 c1
    rw [machine_addSec_of_fits _ _ a1 a2, a3]
  · obtain ⟨a1, a2, a3⟩ := k2 c2
    rw [machine_addSec_of_fits _ _ a1 a2, a3]
  · obtain ⟨a1, a2, a3⟩ := k3 c1 c2
    rw [machine_addSec_of_fits _ _ a1 a2, a3]

/-- Adding durations one after the other is adding their sum, while every
stage stays within the range of `time.Time`. -/
theorem machine_foldl_Add_of_staysInRange (ds : List Duration) (t : Time)
    (h : machine.staysInRange t ds) :
    ds.foldl machine.Time.Add t = ⟨t.ns + ds.sum⟩ := by
  induction ds generalizing t with
  | nil => simp
  | cons d ds ih =>
    obtain ⟨h1, h2⟩ := h
    rw [List.foldl_cons, machine_Time_Add_of_fits t d h1, ih _ h2]
    simp [add_assoc]

theorem machine_Now_some {σ : Type} (s : State σ) (c : Clock σ) (hc : s.clock = some c) :
    machine.Now s = ((callNow c.nowCallback c.index s.env).1,
      { s with clock := some { c with index := wrapInt64 (c.index + 1) },
               env := (callNow c.nowCallback c.index s.env).2 }) := by
  unfold machine.Now
  rw [hc]

theorem machine_TimeSince_eq {σ : Type} (before : Time) (s : State σ) :
    machine.TimeSince before s =
      ((machine.Now s).1.map (fun t => machine.Time.Sub t before), (machine.Now s).2) := by
  unfold machine.TimeSince
  rcases machine.Now s with ⟨r, s1⟩
  cases r <;> rfl

theorem machine_NewClockAt_eq (instant : Time) (real : RealTime) :
    machine.NewClockAt instant real = machineSleeperState instant instant 0 [] real := rfl

theorem machine_exec_append {σ : Type} (es fs : List Step) (s : State σ) :
    machine.exec (es ++ fs) s = machine.exec fs (machine.exec es s) := by
  induction es generalizing s with
  | nil => rfl
  | cons e es ih => exact ih (machine.step e s).2

theorem machine_trace_append {σ : Type} (es fs : List Step) (s : State σ) :
    machine.trace (es ++ fs) s = machine.trace es s ++ machine.trace fs (machine.exec es s) := by
  induction es generalizing s with
  | nil => rfl
  | cons e es ih =>
    show (machine.step e s).1 :: machine.trace (es ++ fs) (machine.step e s).2 = _
    rw [ih]
    rfl

theorem machine_trace_length {σ : Type} (es : List Step) (s : State σ) :
    (machine.trace es s).length = es.length := by
  induction es generalizing s with
  | nil => rfl
  | cons e es ih => simp only [machine.trace, List.length_cons, ih]

theorem machine_trace_getElem?_append_cons {σ : Type} (pre post : List Step) (e : Step)
    (s : State σ) :
    (machine.trace (pre ++ e :: post) s)[pre.length]? =
      some (machine.step e (machine.exec pre s)).1 := by
  rw [machine_trace_append,
    List.getElem?_append_right (by rw [machine_trace_length]), machine_trace_length]
  simp [machine.trace]

theorem machine_step_sleeperState (start cur : Time) (e : Step) (i : Int)
    (nap : List Duration) (real : RealTime) :
    ∃ j nap1 real1,
      (machine.step e (machineSleeperState start cur i nap real)).2 =
        machineSleeperState start (machineSleeperAfter cur e) j nap1 real1 := by
  cases e with
  | Now => exact ⟨wrapInt64 (i + 1), nap, real, rfl⟩
  | Sleep d => exact ⟨i, nap ++ [d], real, rfl⟩
  | TimeSince b => exact ⟨wrapInt64 (i + 1), nap, real, rfl⟩
  | NapDurations => exact ⟨i, nap, real, rfl⟩
  | ClearNapDurations => exact ⟨i, [], real, rfl⟩
  | realTime t => exact ⟨i, nap, { real with now := t }, rfl⟩

theorem machine_exec_sleeperState (start cur : Time) (es : List Step) (i : Int)
    (nap : List Duration) (real : RealTime) :
    ∃ j nap1 real1,
      machine.exec es (machineSleeperState start cur i nap real) =
        machineSleeperState start ((sleepDurations es).foldl machine.Time.Add cur)
          j nap1 real1 := by
  induction es generalizing cur i nap real with
  | nil => exact ⟨i, nap, real, by simp [machine.exec, sleepDurations]⟩
  | cons e es ih =>
    obtain ⟨j, nap1, real1, hstep⟩ := machine_step_sleeperState start cur e i nap real
    obtain ⟨k, nap2, real2, hexec⟩ := ih (machineSleeperAfter cur e) j nap1 real1
    refine ⟨k, nap2, real2, ?_⟩
    simp only [machine.exec, hstep, hexec]
    cases e <;> simp [machineSleeperAfter, sleepDurations]

/-- On a clock built by `machine.NewClockAt(T)`, a `Now` placed after the
steps `pre` returns `T` moved by `Add` with each duration slept in `pre`. -/
theorem machine_Now_after_NewClockAt (T : Time) (real : RealTime) (pre : List Step) :
    (machine.step Step.Now (machine.exec pre (machine.NewClockAt T real))).1 =
      .ret (.instant ((sleepDurations pre).foldl machine.Time.Add T)) := by
  obtain ⟨j, nap1, real1, hexec⟩ := machine_exec_sleeperState T T pre 0 [] real
  rw [machine_NewClockAt_eq, hexec]
  rfl

/-- What a step does to the clock with machine arithmetic: the callbacks stay,
a time query increments the index as a Go `int`, any other step leaves it. -/
theorem machine_step_clock {σ : Type} (st : Step) (s : State σ) (c : Clock σ)
    (hc : s.clock = some c) :
    ∃ c1, (machine.step st s).2.clock = some c1 ∧ c1.nowCallback = c.nowCallback ∧
      c1.sleepCallback = c.sleepCallback ∧
      c1.index = if isQuery st then wrapInt64 (c.index + 1) else c.index := by
  cases st with
  | Now =>
    exact ⟨{ c with index := wrapInt64 (c.index + 1) },
      by simp only [machine.step, machine_Now_some s c hc], rfl, rfl, rfl⟩
  | TimeSince b =>
    exact ⟨{ c with index := wrapInt64 (c.index + 1) },
      by simp only [machine.step, machine_TimeSince_eq, machine_Now_some s c hc],
      rfl, rfl, rfl⟩
  | NapDurations =>
    exact ⟨c, by simp only [machine.step, NapDurations, hc], rfl, rfl, rfl⟩
  | ClearNapDurations =>
    exact ⟨{ c with napDurations := [] },
      by simp only [machine.step, ClearNapDurations, hc], rfl, rfl, rfl⟩
  | realTime t => exact ⟨c, hc, rfl, rfl, rfl⟩
  | Sleep d =>
    cases hf : c.sleepCallback with
    | none =>
      exact ⟨c, by simp only [machine.step, Sleep_no_callback d s c hc hf, hc], rfl, hf, rfl⟩
    | some f =>
      rcases hfd : f d s.env with ⟨r, env1⟩
      cases r with
      | ret u =>
        exact ⟨{ c with napDurations := c.napDurations ++ [d] },
          by simp only [machine.step, Sleep_ret d s c f env1 hc hf hfd], rfl, hf, rfl⟩
      | panic p =>
        exact ⟨c, by simp only [machine.step, Sleep_panic d s c f p env1 hc hf hfd, hc],
          rfl, hf, rfl⟩

theorem queries_cons (st : Step) (es : List Step) :
    queries (st :: es) = queries es + (if isQuery st then 1 else 0) := by
  simp [queries, List.countP_cons]

theorem queries_manyNows (n : Nat) : queries (manyNows n) = n := by
  induction n with
  | zero => rfl
  | succ n ih =>
    have h : manyNows (n + 1) = Step.Now :: manyNows n := rfl
    rw [h, queries_cons, ih]
    rfl

/-- A run with machine arithmetic: the callbacks stay and the index is the
wrapped count of the time queries. -/
theorem machine_exec_clock {σ : Type} (es : List Step) (s : State σ) (c : Clock σ)
    (j : Int) (hc : s.clock = some c) (hj : c.index = wrapInt64 j) :
    ∃ c1, (machine.exec es s).clock = some c1 ∧ c1.nowCallback = c.nowCallback ∧
      c1.sleepCallback = c.sleepCallback ∧
      c1.index = wrapInt64 (j + (queries es : Int)) := by
  induction es generalizing s c j with
  | nil => exact ⟨c, hc, rfl, rfl, by simpa [queries] using hj⟩
  | cons st es ih =>
    obtain ⟨c1, h1, h2, h3, h4⟩ := machine_step_clock st s c hc
    cases hq : isQuery st with
    | false =>
      simp only [hq, Bool.false_eq_true, if_false] at h4
      obtain ⟨c2, k1, k2, k3, k4⟩ := ih (machine.step st s).2 c1 j h1 (by rw [h4, hj])
      refine ⟨c2, k1, k2.trans h2, k3.trans h3, ?_⟩
      rw [k4, queries_cons, hq]
      simp
    | true =>
      simp only [hq, if_true] at h4
      obtain ⟨c2, k1, k2, k3, k4⟩ := ih (machine.step st s).2 c1 (j + 1) h1
        (by rw [h4, hj, wrapInt64_wrapInt64_add])
      refine ⟨c2, k1, k2.trans h2, k3.trans h3, ?_⟩
      rw [k4, queries_cons, hq]
      congr 1
      push_cast
      simp only [if_true]
      ring

/-- The outcome of `Now` is the same with either arithmetic: the two differ
in the index they leave only. -/
theorem Now_fst_machine {σ : Type} (s : State σ) : (machine.Now s).1 = (Now s).1 := by
  cases hc : s.clock with
  | none => simp only [machine.Now, Now, hc]
  | some c => rw [machine_Now_some s c hc, Now_some s c hc]

/-- One step with machine arithmetic on a clock with instrumented callbacks:
a time query calls the time-source once, with the current index. -/
theorem machine_step_observedState {σ : Type} (f : NowCallbackFn σ)
    (g : Option (SleepCallbackFn σ)) (st : Step) (i : Int) (nap : List Duration) (e : σ)
    (l : CallLog) (real : RealTime) :
    ∃ nap1 e1 l1 real1,
      (machine.step st (observedState f g i nap e l real)).2 =
        observedState f g (if isQuery st then wrapInt64 (i + 1) else i) nap1 e1 l1 real1 ∧
      l1.nowArgs = l.nowArgs ++ (if isQuery st then [i] else []) := by
  cases st with
  | Now => exact ⟨nap, (f i e).2, { l with nowArgs := l.nowArgs ++ [i] }, real, rfl, rfl⟩
  | TimeSince b =>
    refine ⟨nap, (f i e).2, { l with nowArgs := l.nowArgs ++ [i] }, real, ?_, rfl⟩
    simp only [machine.step, machine_TimeSince_eq]
    rfl
  | NapDurations => exact ⟨nap, e, l, real, rfl, by simp [isQuery]⟩
  | ClearNapDurations => exact ⟨[], e, l, real, rfl, by simp [isQuery]⟩
  | realTime t => exact ⟨nap, e, l, { real with now := t }, rfl, by simp [isQuery]⟩
  | Sleep d =>
    cases g with
    | none => exact ⟨nap, e, l, real, rfl, by simp [isQuery]⟩
    | some g0 =>
      rcases hgd : g0 d e with ⟨r, e1⟩
      have hlog : loggedSleep g0 d (e, l) =
          (r, (e1, { l with sleepArgs := l.sleepArgs ++ [d] })) := by
        simp only [loggedSleep, hgd]
      cases r with
      | ret u =>
        refine ⟨nap ++ [d], e1, { l with sleepArgs := l.sleepArgs ++ [d] }, real, ?_,
          by simp [isQuery]⟩
        simp only [machine.step, Sleep_ret d (observedState f (some g0) i nap e l real) _
          (loggedSleep g0) _ rfl rfl hlog]
        rfl
      | panic p =>
        refine ⟨nap, e1, { l with sleepArgs := l.sleepArgs ++ [d] }, real, ?_,
          by simp [isQuery]⟩
        simp only [machine.step, Sleep_panic d (observedState f (some g0) i nap e l real) _
          (loggedSleep g0) p _ rfl rfl hlog]
        rfl

/-- A run with machine arithmetic on a clock with instrumented callbacks: the
time-source receives the wrapped indices from the current one on, one per
time query. -/
theorem machine_exec_observedState {σ : Type} (f : NowCallbackFn σ)
    (g : Option (SleepCallbackFn σ)) (es : List Step) (j : Int) (nap : List Duration)
    (e : σ) (l : CallLog) (real : RealTime) :
    ∃ nap1 e1 l1 real1,
      machine.exec es (observedState f g (wrapInt64 j) nap e l real) =
        observedState f g (wrapInt64 (j + (queries es : Int))) nap1 e1 l1 real1 ∧
      l1.nowArgs =
        l.nowArgs ++ (List.range (queries es)).map (fun (k : Nat) => wrapInt64 (j + (k : Int))) := by
  induction es generalizing j nap e l real with
  | nil => exact ⟨nap, e, l, real, by simp [machine.exec, queries], by simp [queries]⟩
  | cons st es ih =>
    obtain ⟨nap1, e1, l1, real1, hstep, hl1⟩ :=
      machine_step_observedState f g st (wrapInt64 j) nap e l real
    cases hst : isQuery st with
    | false =>
      have hq : queries (st :: es) = queries es := by
        simp [queries_cons, hst]
      simp only [hst, Bool.false_eq_true, if_false, List.append_nil] at hstep hl1
      obtain ⟨nap2, e2, l2, real2, hexec, hl2⟩ := ih j nap1 e1 l1 real1
      exact ⟨nap2, e2, l2, real2, by simp only [machine.exec, hstep, hexec, hq],
        by rw [hl2, hl1, hq]⟩
    | true =>
      have hq : queries (st :: es) = queries es + 1 := by
        simp [queries_cons, hst]
      simp only [hst, if_true, wrapInt64_wrapInt64_add] at hstep hl1
      obtain ⟨nap2, e2, l2, real2, hexec, hl2⟩ := ih (j + 1) nap1 e1 l1 real1
      refine ⟨nap2, e2, l2, real2, ?_, ?_⟩
      · simp only [machine.exec, hstep, hexec, hq]
        congr 2
        push_cast
        ring
      · rw [hl2, hl1, hq, List.range_succ_eq_map, List.map_cons, List.map_map,
          List.append_assoc]
        congr 1
        simp only [List.singleton_append, Nat.cast_zero, add_zero, List.cons.injEq, true_and]
        apply List.map_congr_left
        intro a _
        simp only [Function.comp_apply, Nat.succ_eq_add_one, Nat.cast_add, Nat.cast_one]
        congr 1
        ring

/-- With either arithmetic, on a clock whose time-source replays `instants`
the outcome of `Now` is what `slicesNowFn` answers at the current index. -/
theorem machine_Now_fst_slicesNowFn (instants : List Time) (s : State Unit) (c : Clock Unit)
    (hc : s.clock = some c) (hf : c.nowCallback = some (slicesNowFn instants)) :
    (machine.Now s).1 = (slicesNowFn instants c.index ()).1 := by
  rw [machine_Now_some s c hc, hf]
  rfl

/-! ## The claims -/

/-- C1: on a clock that is not nil and whose time-source returns normally on
the current index `i`, `Now` returns exactly the value `nowCallback(i)` of the
index before the increment, and leaves the clock with index `i + 1`; the
environment is the one the time-source left and nothing else changes. -/
theorem C1_Now_returns_callback_value {σ : Type} (s : State σ) (c : Clock σ)
    (f : NowCallbackFn σ) (v : Time) (env1 : σ)
    (hc : s.clock = some c) (hf : c.nowCallback = some f)
    (hret : f c.index s.env = (.ret v, env1)) :
    (Now s).1 = .ret v ∧
    indexOf (Now s).2 = some (c.index + 1) ∧
    (Now s).2 = { s with clock := some { c with index := c.index + 1 }, env := env1 } := by
  rw [Now_some s c hc]
  simp [callNow, hf, hret, indexOf]

/-- A use of C1: the first `Now` of a clock replaying the single instant 7. -/
theorem C1_Now_returns_callback_value_witness :
    (Now (NewClockFromSlice [⟨7⟩] sampleReal)).1 = .ret ⟨7⟩ ∧
    indexOf (Now (NewClockFromSlice [⟨7⟩] sampleReal)).2 = some (0 + 1) :=
  have h := C1_Now_returns_callback_value (NewClockFromSlice [⟨7⟩] sampleReal)
    (NewClockFromCallbacks (some (slicesNowFn [⟨7⟩])) none) (slicesNowFn [⟨7⟩]) ⟨7⟩ ()
    rfl rfl rfl
  ⟨h.1, h.2.1⟩

/-- C2, as stated, fails: on the clock replaying no instant the time-source
panics at index 0, the panic reaches the caller, and the index has moved from
0 to 1. -/
theorem C2_counterexample :
    (slicesNowFn [] 0 () : Outcome Time × Unit) = (.panic exhausted, ()) ∧
    (Now (NewClockFromSlice [] sampleReal)).1 = .panic exhausted ∧
    indexOf (NewClockFromSlice [] sampleReal) = some 0 ∧
    indexOf (Now (NewClockFromSlice [] sampleReal)).2 = some 1 ∧
    indexOf (Now (NewClockFromSlice [] sampleReal)).2 ≠
      indexOf (NewClockFromSlice [] sampleReal) := by
  refine ⟨rfl, rfl, rfl, rfl, ?_⟩
  decide

/-- C2, amended: on a clock that is not nil, when the time-source panics on
the current index the panic reaches the caller of `Now` unchanged, and the
deferred increment still runs: the index after the failed call is the index
before it plus one. -/
theorem C2_Now_panic_still_increments {σ : Type} (s : State σ) (c : Clock σ)
    (f : NowCallbackFn σ) (p : PanicValue) (env1 : σ)
    (hc : s.clock = some c) (hf : c.nowCallback = some f)
    (hpanic : f c.index s.env = (.panic p, env1)) :
    (Now s).1 = .panic p ∧
    indexOf (Now s).2 = some (c.index + 1) ∧
    (Now s).2 = { s with clock := some { c with index := c.index + 1 }, env := env1 } := by
  rw [Now_some s c hc]
  simp [callNow, hf, hpanic, indexOf]

/-- A use of the amended C2: the second `Now` of a clock replaying one instant. -/
theorem C2_Now_panic_still_increments_witness :
    (Now (Now (NewClockFromSlice [⟨7⟩] sampleReal)).2).1 = .panic exhausted ∧
    indexOf (Now (Now (NewClockFromSlice [⟨7⟩] sampleReal)).2).2 = some (1 + 1) :=
  have h := C2_Now_panic_still_increments (Now (NewClockFromSlice [⟨7⟩] sampleReal)).2
    { index := 1, nowCallback := some (slicesNowFn [⟨7⟩]), sleepCallback := none,
      napDurations := [] }
    (slicesNowFn [⟨7⟩]) exhausted () rfl rfl rfl
  ⟨h.1, h.2.1⟩

/-- C3: on a clock freshly built by `NewClockFromSlice` from the instants `L`,
for every `k` below the length of `L` the `(k+1)`-th call of `Now` returns
`L[k]`, whatever `Sleep`, `ClearNapDurations` and `NapDurations` calls and
whatever passage of real time are interleaved with the `Now` calls (the
sequence holds no `TimeSince`, which would take an instant of its own). -/
theorem C3_slice_replays_in_order (L : List Time) (real : RealTime) (es : List Step)
    (hes : ∀ b, Step.TimeSince b ∉ es) (k : Nat) (hk : k < L.length)
    (hnow : k < es.count Step.Now) :
    (nowOutcomes es (NewClockFromSlice L real))[k]? = some (.ret (.instant L[k])) := by
  rw [NewClockFromSlice_eq, nowOutcomes_sliceState L es hes 0 [] real k hnow]
  simp [sliceOutcome, List.getElem?_eq_getElem hk, Outcome.map]

/-- A use of C3: the second `Now` of a clock replaying the instants 1 and 2,
with a `Sleep` before the first and a `ClearNapDurations` before the second. -/
theorem C3_slice_replays_in_order_witness :
    (nowOutcomes [Step.Sleep 5, Step.Now, Step.ClearNapDurations, Step.Now]
        (NewClockFromSlice [⟨1⟩, ⟨2⟩] sampleReal))[1]? = some (.ret (.instant ⟨2⟩)) :=
  C3_slice_replays_in_order [⟨1⟩, ⟨2⟩] sampleReal
    [Step.Sleep 5, Step.Now, Step.ClearNapDurations, Step.Now]
    (by intro b hb; simp at hb) 1 (by decide) (by decide)

/-- C4: for every list `L` of instants, the empty one included, `Now` on a
clock whose time-source is `slicesNowFn(L...)` fails with the exhaustion panic
exactly when the current index is at least the length of `L`.  Every state a
clock built by `NewClockFromSlice(L...)` reaches is of that kind, with an
index that is not negative, and there `Now` returns `L[index]` when the index
is below the length.  On a fresh clock the first `n` calls of `Now` return
the `n` instants and the call after them fails with the exhaustion panic. -/
theorem C4_exhaustion_iff_index_at_least_length (L : List Time) (real : RealTime) :
    (∀ (s : State Unit) (c : Clock Unit), s.clock = some c →
        c.nowCallback = some (slicesNowFn L) →
        ((Now s).1 = .panic exhausted ↔ (L.length : Int) ≤ c.index)) ∧
    (∀ es : List Step, ∃ (i : Nat) (c : Clock Unit),
        (exec es (NewClockFromSlice L real)).clock = some c ∧
        c.nowCallback = some (slicesNowFn L) ∧ c.index = (i : Int) ∧
        ((Now (exec es (NewClockFromSlice L real))).1 = .panic exhausted ↔ L.length ≤ i) ∧
        (∀ h : i < L.length,
          (Now (exec es (NewClockFromSlice L real))).1 = .ret (L.get ⟨i, h⟩))) ∧
    trace (List.replicate (L.length + 1) Step.Now) (NewClockFromSlice L real) =
      L.map (fun t => Outcome.ret (Value.instant t)) ++ [Outcome.panic exhausted] := by
  refine ⟨fun s c hc hf => Now_slicesNowFn_exhausted_iff L s c hc hf, ?_, ?_⟩
  · intro es
    obtain ⟨i, nap, real1, _, hexec⟩ := exec_sliceState L es 0 [] real
    rw [NewClockFromSlice_eq, hexec]
    refine ⟨i, _, rfl, rfl, rfl, ?_, ?_⟩
    · rw [Now_slicesNowFn_exhausted_iff L _ _ rfl rfl]
      exact Int.ofNat_le
    · intro h
      rw [Now_sliceState]
      simp [sliceOutcome, List.getElem?_eq_getElem h]
  · have h := trace_Now_sliceState [] L [] real
    simpa [NewClockFromSlice_eq] using h

/-- C6: on a clock built by `NewClock()`, which is `NewClockAt` at the instant
`time.Now()` reads at construction, two `Now` calls with no `Sleep` between
them return the same instant, whatever else happens between them (real time
may move on); the instant is the one read at construction plus the durations
slept so far, hence the instant read at construction itself when no `Sleep`
came before. -/
theorem C6_NewClock_Now_is_stable (real : RealTime) (pre mid post : List Step)
    (hmid : ∀ d, Step.Sleep d ∉ mid) :
    NewClock real = NewClockAt (timeNow real) real ∧
    (trace (pre ++ Step.Now :: (mid ++ Step.Now :: post)) (NewClock real))[pre.length]? =
      (trace (pre ++ Step.Now :: (mid ++ Step.Now :: post)) (NewClock real))[
        pre.length + 1 + mid.length]? ∧
    (trace (pre ++ Step.Now :: (mid ++ Step.Now :: post)) (NewClock real))[pre.length]? =
      some (.ret (.instant ((timeNow real).Add (sleepDurations pre).sum))) ∧
    ((∀ d, Step.Sleep d ∉ pre) →
      (trace (pre ++ Step.Now :: (mid ++ Step.Now :: post)) (NewClock real))[pre.length]? =
        some (.ret (.instant (timeNow real)))) := by
  have h1 := trace_getElem?_append_cons pre (mid ++ Step.Now :: post) Step.Now (NewClock real)
  have h2 := trace_getElem?_append_cons (pre ++ Step.Now :: mid) post Step.Now (NewClock real)
  have hlen : (pre ++ Step.Now :: mid).length = pre.length + 1 + mid.length := by
    simp [Nat.add_comm, Nat.add_left_comm]
  have hsum : sleepDurations (pre ++ Step.Now :: mid) = sleepDurations pre := by
    rw [sleepDurations_append]
    simp [sleepDurations, sleepDurations_eq_nil mid hmid]
  rw [hlen, List.append_assoc, List.cons_append] at h2
  unfold NewClock at h1 h2 ⊢
  rw [Now_after_NewClockAt] at h1 h2
  rw [hsum] at h2
  refine ⟨rfl, by rw [h1, h2], h1, fun hpre => ?_⟩
  rw [h1, sleepDurations_eq_nil pre hpre]
  simp [Time.Add_zero]

/-- A use of C6: real time moves from 1000 to 5000 between two `Now` calls. -/
theorem C6_NewClock_Now_is_stable_witness :
    (trace ([] ++ Step.Now :: ([Step.realTime ⟨5000⟩] ++ Step.Now :: []))
        (NewClock sampleReal))[0]? =
      (trace ([] ++ Step.Now :: ([Step.realTime ⟨5000⟩] ++ Step.Now :: []))
        (NewClock sampleReal))[0 + 1 + 1]? :=
  (C6_NewClock_Now_is_stable sampleReal [] [Step.realTime ⟨5000⟩] []
    (by intro d hd; simp at hd)).2.1

/-- C7: on a clock with a sleep-effect configured, after steps that hold no
`ClearNapDurations` and whose `Sleep` calls all return normally,
`NapDurations` returns the log from before followed by the slept durations in
call order; so from an empty log, which is the log at construction and after
`ClearNapDurations`, it returns exactly the slept durations.  Each `Sleep`
appends one element at the end and keeps the earlier ones.  On a clock built
by `NewClockAt` no `Sleep` fails, so the log is the list of slept durations. -/
theorem C7_NapDurations_lists_sleeps_in_order {σ : Type} (s : State σ) (c : Clock σ)
    (f : SleepCallbackFn σ) (hc : s.clock = some c) (hf : c.sleepCallback = some f)
    (es : List Step) (hclear : Step.ClearNapDurations ∉ es)
    (hok : ∀ (n : Nat) (d : Duration), es[n]? = some (Step.Sleep d) →
      (trace es s)[n]? = some (Outcome.ret Value.unit)) :
    (NapDurations (exec es s)).1 = .ret (c.napDurations ++ sleepDurations es) ∧
    (c.napDurations = [] → (NapDurations (exec es s)).1 = .ret (sleepDurations es)) ∧
    (∀ (d : Duration) (env1 : σ), f d s.env = (.ret (), env1) →
      (NapDurations (Sleep d s).2).1 = .ret (c.napDurations ++ [d])) ∧
    (∀ (nowFn : Option (NowCallbackFn σ)),
      (NewClockFromCallbacks nowFn (some f)).napDurations = []) ∧
    (NapDurations (ClearNapDurations s).2).1 = .ret [] ∧
    (∀ (T : Time) (real : RealTime) (fs : List Step), Step.ClearNapDurations ∉ fs →
      (NapDurations (exec fs (NewClockAt T real))).1 = .ret (sleepDurations fs)) := by
  obtain ⟨c1, h1, _, h3⟩ := log_after_steps es s c f hc hf hclear hok
  have hmain : (NapDurations (exec es s)).1 = .ret (c.napDurations ++ sleepDurations es) := by
    simp only [NapDurations, h1, h3]
  refine ⟨hmain, fun hnil => by simpa [hnil] using hmain, ?_, fun _ => rfl, ?_, ?_⟩
  · intro d env1 hret
    rw [Sleep_ret d s c f env1 hc hf hret]
    rfl
  · simp only [ClearNapDurations, NapDurations, hc]
  · intro T real fs hfs
    obtain ⟨c2, h4, _, h6⟩ := log_after_steps fs (NewClockAt T real) _ _ rfl rfl hfs
      (fun n d hn => by
        rw [NewClockAt_eq]
        exact trace_sleeperState_Sleep T T fs 0 [] real n d hn)
    simp only [NapDurations, h4, h6]
    rfl

/-- A use of C7: two sleeps, of 10 and of 60, on a clock built by `NewClockAt`. -/
theorem C7_NapDurations_lists_sleeps_in_order_witness :
    (NapDurations (exec [Step.Sleep 10, Step.Now, Step.Sleep 60]
      (NewClockAt ⟨100⟩ sampleReal))).1 = .ret ([] ++ [10, 60]) :=
  (C7_NapDurations_lists_sleeps_in_order (NewClockAt ⟨100⟩ sampleReal)
    (NewClockFromCallbacks (some (NewDefaultSleeperCallbacks ⟨100⟩).1.1)
      (some (NewDefaultSleeperCallbacks ⟨100⟩).1.2))
    (NewDefaultSleeperCallbacks ⟨100⟩).1.2 rfl rfl
    [Step.Sleep 10, Step.Now, Step.Sleep 60] (by decide)
    (fun n d hn => trace_sleeperState_Sleep ⟨100⟩ ⟨100⟩ _ 0 [] sampleReal n d hn)).1

/-- C8: on a clock that is not nil, in any state, `ClearNapDurations` returns
normally, makes `NapDurations` empty and changes nothing else: the index, the
time-source, the sleep-effect, the captured variables (the simulated now of a
clock built by `NewClockAt`) and the real clock are as before, and the next
`Now` returns what it would have returned without the clear. -/
theorem C8_ClearNapDurations_only_empties_log {σ : Type} (s : State σ) (c : Clock σ)
    (hc : s.clock = some c) :
    ClearNapDurations s = (.ret (), { s with clock := some { c with napDurations := [] } }) ∧
    (NapDurations (ClearNapDurations s).2).1 = .ret [] ∧
    indexOf (ClearNapDurations s).2 = indexOf s ∧
    (ClearNapDurations s).2.clock.map (·.nowCallback) = s.clock.map (·.nowCallback) ∧
    (ClearNapDurations s).2.clock.map (·.sleepCallback) = s.clock.map (·.sleepCallback) ∧
    (ClearNapDurations s).2.env = s.env ∧
    (ClearNapDurations s).2.real = s.real ∧
    (Now (ClearNapDurations s).2).1 = (Now s).1 ∧
    (Now (ClearNapDurations s).2).2 = (ClearNapDurations (Now s).2).2 := by
  have h : ClearNapDurations s =
      (.ret (), { s with clock := some { c with napDurations := [] } }) := by
    simp only [ClearNapDurations, hc]
  refine ⟨h, ?_, ?_, ?_, ?_, ?_, ?_, ?_, ?_⟩
  · rw [h]; rfl
  · rw [h]; simp [indexOf, hc]
  · rw [h]; simp [hc]
  · rw [h]; simp [hc]
  · rw [h]
  · rw [h]
  · rw [h, Now_some s c hc, Now_some _ _ rfl]
  · rw [h, Now_some s c hc, Now_some _ _ rfl]
    rfl

/-- A use of C8: clearing after a sleep of 10 on a clock built by `NewClockAt`
leaves the simulated now at 110. -/
theorem C8_ClearNapDurations_only_empties_log_witness :
    (NapDurations (ClearNapDurations (Sleep 10 (NewClockAt ⟨100⟩ sampleReal)).2).2).1 =
      .ret [] ∧
    (Now (ClearNapDurations (Sleep 10 (NewClockAt ⟨100⟩ sampleReal)).2).2).1 =
      (Now (Sleep 10 (NewClockAt ⟨100⟩ sampleReal)).2).1 :=
  have h := C8_ClearNapDurations_only_empties_log (Sleep 10 (NewClockAt ⟨100⟩ sampleReal)).2
    { index := 0, nowCallback := some (NewDefaultSleeperCallbacks ⟨100⟩).1.1,
      sleepCallback := some (NewDefaultSleeperCallbacks ⟨100⟩).1.2,
      napDurations := [] ++ [10] } rfl
  ⟨h.2.1, h.2.2.2.2.2.2.2.1⟩

/-- C9: on a clock that is not nil and has no sleep-effect, `Sleep(d)` is a
no-op for every duration `d`: it returns normally and the whole state is as
before, so `NapDurations` and the index are unchanged.  Every state reached
by a clock built by `NewClockFromSlice` is of that kind. -/
theorem C9_Sleep_without_effect_is_noop {σ : Type} (s : State σ) (c : Clock σ)
    (hc : s.clock = some c) (hf : c.sleepCallback = none) (d : Duration) :
    Sleep d s = (.ret (), s) ∧
    (NapDurations (Sleep d s).2).1 = (NapDurations s).1 ∧
    indexOf (Sleep d s).2 = indexOf s ∧
    (∀ (L : List Time) (real : RealTime) (es : List Step),
      Sleep d (exec es (NewClockFromSlice L real)) =
        (.ret (), exec es (NewClockFromSlice L real))) := by
  have h := Sleep_no_callback d s c hc hf
  refine ⟨h, by rw [h], by rw [h], ?_⟩
  intro L real es
  obtain ⟨i, nap, real1, _, hexec⟩ := exec_sliceState L es 0 [] real
  rw [NewClockFromSlice_eq, hexec]
  exact Sleep_no_callback d _ _ rfl rfl

/-- A use of C9: a negative sleep on a fresh clock replaying one instant. -/
theorem C9_Sleep_without_effect_is_noop_witness :
    (NapDurations (Sleep (-5) (NewClockFromSlice [⟨7⟩] sampleReal)).2).1 =
      (NapDurations (NewClockFromSlice [⟨7⟩] sampleReal)).1 ∧
    indexOf (Sleep (-5) (NewClockFromSlice [⟨7⟩] sampleReal)).2 =
      indexOf (NewClockFromSlice [⟨7⟩] sampleReal) :=
  have h := C9_Sleep_without_effect_is_noop (NewClockFromSlice [⟨7⟩] sampleReal)
    (NewClockFromCallbacks (some (slicesNowFn [⟨7⟩])) none) rfl rfl (-5)
  ⟨h.2.1, h.2.2.1⟩

/-- C10: on a clock that is not nil, `TimeSince(b)` returns the value `Now`
would return in that state with `b` subtracted by `Sub` (the plain difference
whenever it fits a duration), fails as `Now` would fail, and leaves exactly
the state one `Now` call leaves: the time-source is called once with the
current index and the index advances by one.  On a clock replaying a list it
takes the instant at the current index, and the next `Now` gets the one after. -/
theorem C10_TimeSince_is_Now_minus_before {σ : Type} (s : State σ) (c : Clock σ)
    (hc : s.clock = some c) (b : Time) :
    (TimeSince b s).1 = (Now s).1.map (fun t => t.Sub b) ∧
    (TimeSince b s).2 = (Now s).2 ∧
    (TimeSince b s).2 = { s with clock := some { c with index := c.index + 1 },
                                 env := (callNow c.nowCallback c.index s.env).2 } ∧
    (∀ (f : NowCallbackFn σ) (v : Time) (env1 : σ), c.nowCallback = some f →
      f c.index s.env = (.ret v, env1) →
      TimeSince b s = (.ret (v.Sub b),
        { s with clock := some { c with index := c.index + 1 }, env := env1 })) ∧
    (∀ t : Time, (Now s).1 = .ret t → minDuration ≤ t.ns - b.ns → t.ns - b.ns ≤ maxDuration →
      (TimeSince b s).1 = .ret (t.ns - b.ns)) ∧
    (∀ (L : List Time) (i : Nat) (h : i < L.length) (nap : List Duration) (real : RealTime),
      TimeSince b (sliceState L i nap real) =
        (.ret ((L.get ⟨i, h⟩).Sub b), sliceState L (i + 1) nap real)) := by
  refine ⟨by rw [TimeSince_eq], by rw [TimeSince_eq], ?_, ?_, ?_, ?_⟩
  · rw [TimeSince_eq, Now_some s c hc]
  · intro f v env1 hf hret
    rw [TimeSince_eq, Now_some s c hc]
    simp [callNow, hf, hret, Outcome.map]
  · intro t ht hlo hhi
    rw [TimeSince_eq, ht]
    simp [Outcome.map, Time.Sub_of_fits t b hlo hhi]
  · intro L i h nap real
    rw [TimeSince_eq, Now_sliceState]
    simp [sliceOutcome, List.getElem?_eq_getElem h, Outcome.map]

/-- A use of C10: `TimeSince` on a fresh clock replaying the instants 7 and 9
takes the first one. -/
theorem C10_TimeSince_is_Now_minus_before_witness :
    (TimeSince ⟨2⟩ (NewClockFromSlice [⟨7⟩, ⟨9⟩] sampleReal)).1 =
      (Now (NewClockFromSlice [⟨7⟩, ⟨9⟩] sampleReal)).1.map (fun t => t.Sub ⟨2⟩) ∧
    (TimeSince ⟨2⟩ (NewClockFromSlice [⟨7⟩, ⟨9⟩] sampleReal)).2 =
      (Now (NewClockFromSlice [⟨7⟩, ⟨9⟩] sampleReal)).2 :=
  have h := C10_TimeSince_is_Now_minus_before (NewClockFromSlice [⟨7⟩, ⟨9⟩] sampleReal)
    (NewClockFromCallbacks (some (slicesNowFn [⟨7⟩, ⟨9⟩])) none) rfl ⟨2⟩
  ⟨h.1, h.2.1⟩

/-- C11: for every instant `T` and every duration `d`, on a clock freshly
built by `NewClockAt(T)` the call `TimeSince` at the instant `d` before `T`
returns exactly `d`.  For every duration but the least one that instant is
what the Go expression `T.Add(-d)` of the test computes. -/
theorem C11_TimeSince_undoes_subtraction (T : Time) (real : RealTime) (d : Duration)
    (hlo : minDuration ≤ d) (hhi : d ≤ maxDuration) :
    (TimeSince ⟨T.ns - d⟩ (NewClockAt T real)).1 = .ret d ∧
    (minDuration < d →
      (TimeSince (T.Add (negDuration d)) (NewClockAt T real)).1 = .ret d) := by
  have hsub : T.Sub ⟨T.ns - d⟩ = d := by
    rw [Time.Sub_of_fits T ⟨T.ns - d⟩ (by simpa using hlo) (by simpa using hhi)]
    simp
  refine ⟨by rw [TimeSince_NewClockAt, hsub], fun hlt => ?_⟩
  rw [TimeSince_NewClockAt, negDuration_of_fits d hlt hhi]
  have hT : T.Add (-d) = ⟨T.ns - d⟩ := by
    simp [Time.Add, sub_eq_add_neg]
  rw [hT, hsub]

/-- A use of C11: the 25 minutes of the test `TestClock_TimeSince`. -/
theorem C11_TimeSince_undoes_subtraction_witness :
    (TimeSince ⟨5000000000000 - 1500000000000⟩
      (NewClockAt ⟨5000000000000⟩ sampleReal)).1 = .ret 1500000000000 :=
  (C11_TimeSince_undoes_subtraction ⟨5000000000000⟩ sampleReal 1500000000000
    (by decide) (by decide)).1

/-- C12: every constructor returns a clock that is not nil, with call index 0
and an empty sleep log; `NewClockFromCallbacks(nowFn, sleepFn)` stores exactly
the two functions it is given; `NewClockFromSlice` attaches no sleep-effect. -/
theorem C12_constructors_start_fresh {σ : Type} (nowFn : Option (NowCallbackFn σ))
    (sleepFn : Option (SleepCallbackFn σ)) (T : Time) (L : List Time) (real : RealTime) :
    ((NewClockFromCallbacks nowFn sleepFn).index = 0 ∧
      (NewClockFromCallbacks nowFn sleepFn).napDurations = [] ∧
      (NewClockFromCallbacks nowFn sleepFn).nowCallback = nowFn ∧
      (NewClockFromCallbacks nowFn sleepFn).sleepCallback = sleepFn) ∧
    (indexOf (NewClock real) = some 0 ∧ logOf (NewClock real) = some [] ∧
      (NapDurations (NewClock real)).1 = .ret []) ∧
    (indexOf (NewClockAt T real) = some 0 ∧ logOf (NewClockAt T real) = some [] ∧
      (NapDurations (NewClockAt T real)).1 = .ret []) ∧
    (indexOf (NewClockFromSlice L real) = some 0 ∧
      logOf (NewClockFromSlice L real) = some [] ∧
      (NapDurations (NewClockFromSlice L real)).1 = .ret [] ∧
      (NewClockFromSlice L real).clock.map (·.sleepCallback) = some none) :=
  ⟨⟨rfl, rfl, rfl, rfl⟩, ⟨rfl, rfl, rfl⟩, ⟨rfl, rfl, rfl⟩, ⟨rfl, rfl, rfl, rfl⟩⟩

/-- C15: on a nil clock `Now` returns what the real clock `time.Now()` reads
and `Sleep(d)` calls the real `time.Sleep` once, with `d`; the receiver stays
nil, no callback runs (the captured variables are as before) and nothing is
recorded: `Now` leaves the whole state alone and `Sleep` changes the real
time primitives only. -/
theorem C15_nil_clock_falls_back_to_real_time {σ : Type} (s : State σ)
    (hnil : s.clock = none) (d : Duration) :
    Now s = (.ret (timeNow s.real), s) ∧
    Sleep d s = (.ret (), { s with real := timeSleep d s.real }) ∧
    (Sleep d s).2.real.sleeps = s.real.sleeps ++ [d] ∧
    (Sleep d s).2.clock = none ∧
    (Sleep d s).2.env = s.env ∧
    logOf (Sleep d s).2 = none := by
  have hNow : Now s = (.ret (timeNow s.real), s) := by
    simp only [Now, hnil]
  have hSleep : Sleep d s = (.ret (), { s with real := timeSleep d s.real }) := by
    simp only [Sleep, hnil]
  refine ⟨hNow, hSleep, ?_, ?_, ?_, ?_⟩
  · rw [hSleep]; rfl
  · rw [hSleep]; exact hnil
  · rw [hSleep]
  · rw [hSleep]; simp [logOf, hnil]

/-- A use of C15: `Now` and a sleep of 500 on the nil clock. -/
theorem C15_nil_clock_falls_back_to_real_time_witness :
    Now (nilClock sampleReal) = (.ret (timeNow sampleReal), nilClock sampleReal) ∧
    (Sleep 500 (nilClock sampleReal)).2.real.sleeps = [] ++ [500] :=
  have h := C15_nil_clock_falls_back_to_real_time (nilClock sampleReal) rfl 500
  ⟨h.1, h.2.2.1⟩

/-- C16: on a clock that is not nil, `Now` and `TimeSince` leave the sleep
log as it is, so `NapDurations` returns the same before and after, and they
never call the sleep-effect: an instrumented sleep-effect has received the
same arguments after the call as before. -/
theorem C16_Now_leaves_sleep_log_alone {σ : Type} (s : State σ) (c : Clock σ)
    (hc : s.clock = some c) (b : Time) :
    logOf (Now s).2 = logOf s ∧
    (NapDurations (Now s).2).1 = (NapDurations s).1 ∧
    logOf (TimeSince b s).2 = logOf s ∧
    (NapDurations (TimeSince b s).2).1 = (NapDurations s).1 ∧
    (∀ (f0 : NowCallbackFn σ) (g0 : Option (SleepCallbackFn σ)) (i : Int)
        (nap : List Duration) (e : σ) (l : CallLog) (real : RealTime),
      (Now (observedState f0 g0 i nap e l real)).2.env.2.sleepArgs = l.sleepArgs ∧
      (TimeSince b (observedState f0 g0 i nap e l real)).2.env.2.sleepArgs =
        l.sleepArgs) := by
  have hN : (Now s).2 =
      { s with
        clock := some { c with index := c.index + 1 },
        env := (callNow c.nowCallback c.index s.env).2 } := by
    rw [Now_some s c hc]
  have hT : (TimeSince b s).2 = (Now s).2 := by
    rw [TimeSince_eq]
  refine ⟨?_, ?_, ?_, ?_, ?_⟩
  · rw [hN]; simp [logOf, hc]
  · rw [hN]; simp [NapDurations, hc]
  · rw [hT, hN]; simp [logOf, hc]
  · rw [hT, hN]; simp [NapDurations, hc]
  · intro f0 g0 i nap e l real
    refine ⟨rfl, ?_⟩
    rw [TimeSince_eq]
    rfl

/-- A use of C16: `Now` after two sleeps on a clock built by `NewClockAt`. -/
theorem C16_Now_leaves_sleep_log_alone_witness :
    (NapDurations (Now (exec [Step.Sleep 10, Step.Sleep 60]
      (NewClockAt ⟨100⟩ sampleReal))).2).1 =
    (NapDurations (exec [Step.Sleep 10, Step.Sleep 60] (NewClockAt ⟨100⟩ sampleReal))).1 :=
  (C16_Now_leaves_sleep_log_alone
    (exec [Step.Sleep 10, Step.Sleep 60] (NewClockAt ⟨100⟩ sampleReal))
    { index := 0, nowCallback := some (NewDefaultSleeperCallbacks ⟨100⟩).1.1,
      sleepCallback := some (NewDefaultSleeperCallbacks ⟨100⟩).1.2,
      napDurations := [] ++ [10] ++ [60] } rfl ⟨0⟩).2.1

/-- C18: on a clock that is not nil, when the sleep-effect panics on the
duration `d`, `Sleep(d)` panics with the same value and records nothing: the
clock, with its log and its index, is as before the call, so `NapDurations`
returns the same. -/
theorem C18_failed_Sleep_records_nothing {σ : Type} (s : State σ) (c : Clock σ)
    (f : SleepCallbackFn σ) (d : Duration) (p : PanicValue) (env1 : σ)
    (hc : s.clock = some c) (hf : c.sleepCallback = some f)
    (hpanic : f d s.env = (.panic p, env1)) :
    (Sleep d s).1 = .panic p ∧
    (Sleep d s).2.clock = s.clock ∧
    (NapDurations (Sleep d s).2).1 = (NapDurations s).1 ∧
    logOf (Sleep d s).2 = logOf s ∧
    indexOf (Sleep d s).2 = indexOf s := by
  rw [Sleep_panic d s c f p env1 hc hf hpanic]
  exact ⟨rfl, rfl, by simp [NapDurations, hc], rfl, rfl⟩

/-- A use of C18: a sleep-effect that always panics. -/
theorem C18_failed_Sleep_records_nothing_witness :
    (Sleep 5 failingSleepClock).1 = .panic (.message "no sleep") ∧
    (NapDurations (Sleep 5 failingSleepClock).2).1 = (NapDurations failingSleepClock).1 :=
  have h := C18_failed_Sleep_records_nothing failingSleepClock
    (NewClockFromCallbacks none (some failingSleep)) failingSleep 5
    (.message "no sleep") () rfl rfl rfl
  ⟨h.1, h.2.2.1⟩

/-- C19: the fallback of the nil clock covers `Now`, `Sleep` and `TimeSince`
only.  On a nil clock `TimeSince(b)` returns normally what the real clock reads
with `b` subtracted, while `NapDurations` and `ClearNapDurations` panic with a
nil dereference; they do not return an empty log or do nothing. -/
theorem C19_nil_clock_log_methods_panic {σ : Type} (s : State σ) (hnil : s.clock = none)
    (b : Time) (d : Duration) :
    (Now s).1 = .ret (timeNow s.real) ∧
    (Sleep d s).1 = .ret () ∧
    TimeSince b s = (.ret ((timeNow s.real).Sub b), s) ∧
    NapDurations s = (.panic .nilDereference, s) ∧
    ClearNapDurations s = (.panic .nilDereference, s) ∧
    (NapDurations s).1 ≠ .ret [] ∧
    (ClearNapDurations s).1 ≠ .ret () := by
  have hNow : Now s = (.ret (timeNow s.real), s) := by
    simp only [Now, hnil]
  refine ⟨by rw [hNow], by simp only [Sleep, hnil], ?_, ?_, ?_, ?_, ?_⟩
  · rw [TimeSince_eq, hNow]
    rfl
  · simp only [NapDurations, hnil]
  · simp only [ClearNapDurations, hnil]
  · simp [NapDurations, hnil]
  · simp [ClearNapDurations, hnil]

/-- A use of C19: the three log-free methods and the two log methods on the
nil clock; the real clock reads 1000. -/
theorem C19_nil_clock_log_methods_panic_witness :
    TimeSince ⟨400⟩ (nilClock sampleReal) = (.ret 600, nilClock sampleReal) ∧
    NapDurations (nilClock sampleReal) = (.panic .nilDereference, nilClock sampleReal) ∧
    ClearNapDurations (nilClock sampleReal) =
      (.panic .nilDereference, nilClock sampleReal) :=
  have h := C19_nil_clock_log_methods_panic (nilClock sampleReal) rfl ⟨400⟩ 0
  ⟨h.2.2.1, h.2.2.2.1, h.2.2.2.2.1⟩

/-! ## The claims that depend on the machine arithmetic -/

/-- C5, as stated, fails: the instant `T` is one second before the last
second `time.Time` can hold; after `Sleep` of ten seconds `Now` returns the
last second, which is `T` plus one second and not `T` plus ten. -/
theorem C5_counterexample :
    (machine.Now (Sleep 10000000000
      (machine.NewClockAt ⟨9223372036854775806000000000⟩ sampleReal)).2).1 =
        .ret ⟨9223372036854775807000000000⟩ ∧
    (⟨9223372036854775807000000000⟩ : Time) ≠
      ⟨9223372036854775806000000000 + 10000000000⟩ := by
  constructor
  · rfl
  · decide

/-- C5, amended: on a clock built by `NewClockAt(T)`, in every finite
sequence of steps each `Now` returns `T` moved by `Time.Add` with each duration
passed to `Sleep` before it, in order, however many `Now` calls came before;
that is exactly `T` plus the sum of those durations whenever every stage stays
within the range of `time.Time`.  After a single `Sleep(D)` it is `T.Add(D)`,
which is `T + D` when that instant is within the range. -/
theorem C5_NewClockAt_Now_is_start_moved_by_sleeps (T : Time) (real : RealTime)
    (es : List Step) (n : Nat) (hn : es[n]? = some Step.Now) :
    (machine.trace es (machine.NewClockAt T real))[n]? =
      some (.ret (.instant ((sleepDurations (es.take n)).foldl machine.Time.Add T))) ∧
    (machine.staysInRange T (sleepDurations (es.take n)) →
      (machine.trace es (machine.NewClockAt T real))[n]? =
        some (.ret (.instant ⟨T.ns + (sleepDurations (es.take n)).sum⟩))) ∧
    (∀ D : Duration,
      (machine.Now (Sleep D (machine.NewClockAt T real)).2).1 =
        .ret (machine.Time.Add T D) ∧
      (machine.inRange ⟨T.ns + D⟩ →
        (machine.Now (Sleep D (machine.NewClockAt T real)).2).1 = .ret ⟨T.ns + D⟩)) := by
  have hlt : n < es.length := by
    by_contra hge
    rw [List.getElem?_eq_none (by omega)] at hn
    exact Option.noConfusion hn
  have hget : es[n] = Step.Now := by
    rw [List.getElem?_eq_getElem hlt] at hn
    exact Option.some.inj hn
  have hsplit : es.take n ++ Step.Now :: es.drop (n + 1) = es := by
    rw [← hget, ← List.drop_eq_getElem_cons hlt, List.take_append_drop]
  have h := machine_trace_getElem?_append_cons (es.take n) (es.drop (n + 1)) Step.Now
    (machine.NewClockAt T real)
  rw [hsplit, List.length_take, min_eq_left hlt.le, machine_Now_after_NewClockAt] at h
  have hD : ∀ D : Duration,
      (machine.Now (Sleep D (machine.NewClockAt T real)).2).1 =
        .ret (machine.Time.Add T D) := fun D => rfl
  refine ⟨h, fun hr => ?_, fun D => ⟨hD D, fun hr => ?_⟩⟩
  · rw [h, machine_foldl_Add_of_staysInRange _ T hr]
  · rw [hD D, machine_Time_Add_of_fits T D hr]

/-- A use of the amended C5: the third `Now` comes after sleeps of 10 and 60. -/
theorem C5_NewClockAt_Now_is_start_moved_by_sleeps_witness :
    (machine.trace [Step.Now, Step.Sleep 10, Step.Now, Step.Sleep 60,
        Step.ClearNapDurations, Step.Now] (machine.NewClockAt ⟨100⟩ sampleReal))[5]? =
      some (.ret (.instant ⟨100 + ([10, 60] : List Duration).sum⟩)) :=
  (C5_NewClockAt_Now_is_start_moved_by_sleeps ⟨100⟩ sampleReal
    [Step.Now, Step.Sleep 10, Step.Now, Step.Sleep 60, Step.ClearNapDurations, Step.Now]
    5 rfl).2.1 (by
      simp only [sleepDurations, List.take, machine.staysInRange, machine.inRange,
        machine.sec, machine.minInt, machine.maxInt]
      decide)

/-- C14, as stated, fails: the instant `T` is in the first second
`time.Time` can hold; after `Sleep` of minus ten seconds `Now` still returns
`T`, the simulated now has not moved backwards to `T + d`. -/
theorem C14_counterexample :
    (machine.Now (Sleep (-10000000000)
      (machine.NewClockAt ⟨-9223372036854775807000000000⟩ sampleReal)).2).1 =
        .ret ⟨-9223372036854775807000000000⟩ ∧
    (⟨-9223372036854775807000000000⟩ : Time) ≠
      ⟨-9223372036854775807000000000 + -10000000000⟩ := by
  constructor
  · rfl
  · decide

/-- C14, amended: on a clock that is not nil and has a sleep-effect,
`Sleep(d)` for every duration `d`, zero and negative ones included, calls the
sleep-effect once with exactly `d` (what `Sleep` returns and the variables it
leaves are those of that one call) and, when the call returns, appends exactly
`d` to the log; nothing is checked, clamped or refused.  On a clock built by
`NewClockAt(T)` the simulated now becomes `T.Add(d)`; that is `T + d`, earlier
than `T` when `d` is negative, whenever `T + d` is within the range of
`time.Time`. -/
theorem C14_Sleep_passes_duration_verbatim {σ : Type} (s : State σ) (c : Clock σ)
    (f : SleepCallbackFn σ) (hc : s.clock = some c) (hf : c.sleepCallback = some f)
    (d : Duration) :
    (Sleep d s).1 = (f d s.env).1 ∧
    (Sleep d s).2.env = (f d s.env).2 ∧
    (∀ env1 : σ, f d s.env = (.ret (), env1) →
      Sleep d s = (.ret (), { s with
        clock := some { c with napDurations := c.napDurations ++ [d] }, env := env1 })) ∧
    (∀ (f0 : NowCallbackFn σ) (g0 : SleepCallbackFn σ) (i : Int) (nap : List Duration)
        (e : σ) (l : CallLog) (real : RealTime),
      (Sleep d (observedState f0 (some g0) i nap e l real)).2.env.2.sleepArgs =
        l.sleepArgs ++ [d]) ∧
    (∀ (T : Time) (real : RealTime),
      (machine.Now (Sleep d (machine.NewClockAt T real)).2).1 =
        .ret (machine.Time.Add T d) ∧
      logOf (Sleep d (machine.NewClockAt T real)).2 = some [d] ∧
      (machine.inRange ⟨T.ns + d⟩ →
        (machine.Now (Sleep d (machine.NewClockAt T real)).2).1 = .ret ⟨T.ns + d⟩ ∧
        (d < 0 → T.ns + d < T.ns))) := by
  refine ⟨?_, ?_, fun env1 hret => Sleep_ret d s c f env1 hc hf hret, ?_, ?_⟩
  · rcases hfd : f d s.env with ⟨r, env1⟩
    cases r with
    | ret u => rw [Sleep_ret d s c f env1 hc hf hfd]
    | panic p => rw [Sleep_panic d s c f p env1 hc hf hfd]
  · rcases hfd : f d s.env with ⟨r, env1⟩
    cases r with
    | ret u => rw [Sleep_ret d s c f env1 hc hf hfd]
    | panic p => rw [Sleep_panic d s c f p env1 hc hf hfd]
  · intro f0 g0 i nap e l real
    rcases hgd : g0 d e with ⟨r, e2⟩
    have hlog : loggedSleep g0 d (e, l) =
        (r, (e2, { l with sleepArgs := l.sleepArgs ++ [d] })) := by
      simp only [loggedSleep, hgd]
    cases r with
    | ret u =>
      rw [Sleep_ret d (observedState f0 (some g0) i nap e l real) _ (loggedSleep g0) _
        rfl rfl hlog]
    | panic p =>
      rw [Sleep_panic d (observedState f0 (some g0) i nap e l real) _ (loggedSleep g0) p _
        rfl rfl hlog]
  · intro T real
    have hN : (machine.Now (Sleep d (machine.NewClockAt T real)).2).1 =
        .ret (machine.Time.Add T d) := rfl
    refine ⟨hN, rfl, fun hr => ⟨?_, fun hd => add_lt_of_neg_right T.ns hd⟩⟩
    rw [hN, machine_Time_Add_of_fits T d hr]

/-- A use of the amended C14: a sleep of minus 30 on a clock built by
`NewClockAt(100)`. -/
theorem C14_Sleep_passes_duration_verbatim_witness :
    (Sleep (-30) (machine.NewClockAt ⟨100⟩ sampleReal)).2.env =
      machine.Time.Add ⟨100⟩ (-30) ∧
    (machine.Now (Sleep (-30) (machine.NewClockAt ⟨100⟩ sampleReal)).2).1 =
      .ret ⟨100 + -30⟩ ∧
    logOf (Sleep (-30) (machine.NewClockAt ⟨100⟩ sampleReal)).2 = some [-30] :=
  have h := C14_Sleep_passes_duration_verbatim (machine.NewClockAt ⟨100⟩ sampleReal)
    (NewClockFromCallbacks (some (machine.NewDefaultSleeperCallbacks ⟨100⟩).1.1)
      (some (machine.NewDefaultSleeperCallbacks ⟨100⟩).1.2))
    (machine.NewDefaultSleeperCallbacks ⟨100⟩).1.2 rfl rfl (-30)
  ⟨h.2.1, ((h.2.2.2.2 ⟨100⟩ sampleReal).2.2 (by
      simp only [machine.inRange, machine.sec, machine.minInt, machine.maxInt]
      decide)).1,
    (h.2.2.2.2 ⟨100⟩ sampleReal).2.1⟩

/-- C13, as stated, fails for long sequences: on a clock built by
`NewClockFromCallbacks` with a time-source that never fails, after
`2^63 - 1` calls of `Now` the index is the greatest `int`, after one more it
is the least `int`, so that call lowered the index, and the call after it
passes the least `int` to the time-source and not `2^63`. -/
theorem C13_counterexample :
    indexOf (machine.exec (manyNows 9223372036854775807)
      (observedClock (fixedNow ⟨0⟩) none () sampleReal)) = some 9223372036854775807 ∧
    indexOf (machine.exec (manyNows (9223372036854775807 + 1))
      (observedClock (fixedNow ⟨0⟩) none () sampleReal)) = some (-9223372036854775808) ∧
    (machine.exec (manyNows (9223372036854775808 + 1))
      (observedClock (fixedNow ⟨0⟩) none () sampleReal)).env.2.nowArgs.getLast? =
        some (-9223372036854775808) := by
  have h0 : observedClock (fixedNow ⟨0⟩) none () sampleReal =
      observedState (fixedNow ⟨0⟩) none (wrapInt64 0) [] ()
        { nowArgs := [], sleepArgs := [] } sampleReal := rfl
  refine ⟨?_, ?_, ?_⟩
  · obtain ⟨nap1, e1, l1, real1, hexec, _⟩ :=
      machine_exec_observedState (fixedNow ⟨0⟩) none (manyNows 9223372036854775807) 0 [] ()
        { nowArgs := [], sleepArgs := [] } sampleReal
    rw [h0, hexec, queries_manyNows]
    rfl
  · obtain ⟨nap1, e1, l1, real1, hexec, _⟩ :=
      machine_exec_observedState (fixedNow ⟨0⟩) none (manyNows (9223372036854775807 + 1)) 0
        [] () { nowArgs := [], sleepArgs := [] } sampleReal
    rw [h0, hexec, queries_manyNows]
    rfl
  · obtain ⟨nap1, e1, l1, real1, hexec, hl⟩ :=
      machine_exec_observedState (fixedNow ⟨0⟩) none (manyNows (9223372036854775808 + 1)) 0
        [] () { nowArgs := [], sleepArgs := [] } sampleReal
    rw [h0, hexec]
    show l1.nowArgs.getLast? = _
    rw [hl, queries_manyNows, List.range_succ, List.map_append, List.nil_append,
      List.map_singleton, List.getLast?_append, List.getLast?_singleton]
    rfl

/-- C13, amended: on a clock built by `NewClockFromCallbacks`, over every
finite sequence of steps with at most `2^63 - 1` calls of `Now` and
`TimeSince` (the greatest Go `int`), the time-source is called with the
indices 0, 1, 2, ... in order, once per `Now` or `TimeSince` call, with no gap
and no repeat, and the index ends at the number of those calls.  `Sleep` and
`ClearNapDurations` never change the index; a step never lowers an index
below the greatest `int`, and at the greatest `int` a `Now` wraps the index
to the least `int`.  (This holds whether or not the time-source fails.) -/
theorem C13_time_source_gets_indices_in_order {σ : Type} (f : NowCallbackFn σ)
    (g : Option (SleepCallbackFn σ)) (e : σ) (real : RealTime) (es : List Step)
    (hq : queries es ≤ 9223372036854775807) :
    (machine.exec es (observedClock f g e real)).env.2.nowArgs =
      (List.range (queries es)).map (fun (k : Nat) => (k : Int)) ∧
    (machine.exec es (observedClock f g e real)).env.2.nowArgs.Nodup ∧
    indexOf (machine.exec es (observedClock f g e real)) = some (queries es : Int) ∧
    (∀ (s : State (σ × CallLog)) (d : Duration), indexOf (Sleep d s).2 = indexOf s) ∧
    (∀ (s : State (σ × CallLog)), indexOf (ClearNapDurations s).2 = indexOf s) ∧
    (∀ (s : State (σ × CallLog)) (st : Step) (i j : Int),
      indexOf s = some i → i < machine.maxInt →
      indexOf (machine.step st s).2 = some j → i ≤ j) ∧
    (∀ (s : State (σ × CallLog)) (c : Clock (σ × CallLog)),
      s.clock = some c → c.index = machine.maxInt →
      indexOf (machine.Now s).2 = some machine.minInt) := by
  have h0 : observedClock f g e real =
      observedState f g (wrapInt64 0) [] e { nowArgs := [], sleepArgs := [] } real := rfl
  obtain ⟨nap1, e1, l1, real1, hexec, hl1⟩ :=
    machine_exec_observedState f g es 0 [] e { nowArgs := [], sleepArgs := [] } real
  have hwrap : ∀ k : Nat, k ≤ 9223372036854775807 → wrapInt64 (0 + (k : Int)) = (k : Int) :=
    fun k hk => by
      rw [zero_add]
      exact wrapInt64_eq_self _ (by omega) (by omega)
  have hargs : (machine.exec es (observedClock f g e real)).env.2.nowArgs =
      (List.range (queries es)).map (fun (k : Nat) => (k : Int)) := by
    rw [h0, hexec]
    show l1.nowArgs = _
    rw [hl1, List.nil_append]
    apply List.map_congr_left
    intro k hk
    have hk1 : k < queries es := List.mem_range.mp hk
    exact hwrap k (by omega)
  refine ⟨hargs, ?_, ?_, ?_, ?_, ?_, ?_⟩
  · rw [hargs]
    exact List.Nodup.map Nat.cast_injective (List.nodup_range _)
  · rw [h0, hexec]
    show some (wrapInt64 (0 + (queries es : Int))) = _
    rw [hwrap _ hq]
  · intro s d
    have h := indexOf_step (Step.Sleep d) s
    simpa [step, isQuery] using h
  · intro s
    have h := indexOf_step Step.ClearNapDurations s
    simpa [step, isQuery] using h
  · intro s st i j hi hlt hj
    cases hc : s.clock with
    | none => simp [indexOf, hc] at hi
    | some c =>
      have hci : c.index = i := by simpa [indexOf, hc] using hi
      obtain ⟨c1, k1, _, _, k4⟩ := machine_step_clock st s c hc
      have hj1 : c1.index = j := by simpa [indexOf, k1] using hj
      have hlt1 : i < 9223372036854775807 := hlt
      rw [hj1, hci] at k4
      cases hqs : isQuery st
      · simp only [hqs, Bool.false_eq_true, if_false] at k4
        omega
      · simp only [hqs, if_true, wrapInt64] at k4
        omega
  · intro s c hc hmax
    rw [machine_Now_some s c hc]
    show some (wrapInt64 (c.index + 1)) = some machine.minInt
    rw [hmax]
    rfl

/-- A use of the amended C13: the time-source of the test, two `Now` calls
around a `Sleep`, and a `TimeSince`. -/
theorem C13_time_source_gets_indices_in_order_witness :
    (machine.exec [Step.Now, Step.Sleep 60, Step.Now, Step.TimeSince ⟨5⟩]
      (observedClock (fixedNow ⟨0⟩) none () sampleReal)).env.2.nowArgs =
      (List.range 3).map (fun (k : Nat) => (k : Int)) :=
  (C13_time_source_gets_indices_in_order (fixedNow ⟨0⟩) none () sampleReal
    [Step.Now, Step.Sleep 60, Step.Now, Step.TimeSince ⟨5⟩] (by decide)).1

/-- C17, as stated, fails once the index has wrapped.  On the clock replaying
no instant the first `Now` fails with the exhaustion panic; after `2^63 - 1`
further calls of `Now` the index is the least `int` and `Now` fails with an
index out of range, not with the exhaustion panic.  On the clock replaying the
one instant 7 the second `Now` fails with the exhaustion panic, and after
`2^64 - 2` further calls the index is back at 0 and `Now` returns 7 again. -/
theorem C17_counterexample :
    (machine.Now (NewClockFromSlice [] sampleReal)).1 = .panic exhausted ∧
    (machine.Now (machine.exec (manyNows 9223372036854775807)
      (machine.Now (NewClockFromSlice [] sampleReal)).2)).1 = .panic .indexOutOfRange ∧
    (machine.Now (machine.Now (NewClockFromSlice [⟨7⟩] sampleReal)).2).1 =
      .panic exhausted ∧
    (machine.Now (machine.exec (manyNows 18446744073709551614)
      (machine.Now (machine.Now (NewClockFromSlice [⟨7⟩] sampleReal)).2).2)).1 =
        .ret ⟨7⟩ := by
  refine ⟨rfl, ?_, rfl, ?_⟩
  · obtain ⟨c1, k1, k2, _, k4⟩ := machine_exec_clock (manyNows 9223372036854775807)
      (machine.Now (NewClockFromSlice [] sampleReal)).2
      { index := wrapInt64 (0 + 1), nowCallback := some (slicesNowFn []),
        sleepCallback := none, napDurations := [] } 1 rfl rfl
    rw [machine_Now_fst_slicesNowFn [] _ c1 k1 k2, k4, queries_manyNows]
    rfl
  · obtain ⟨c1, k1, k2, _, k4⟩ := machine_exec_clock (manyNows 18446744073709551614)
      (machine.Now (machine.Now (NewClockFromSlice [⟨7⟩] sampleReal)).2).2
      { index := wrapInt64 (wrapInt64 (0 + 1) + 1), nowCallback := some (slicesNowFn [⟨7⟩]),
        sleepCallback := none, napDurations := [] } 2 rfl rfl
    rw [machine_Now_fst_slicesNowFn [⟨7⟩] _ c1 k1 k2, k4, queries_manyNows]
    rfl

/-- C17, amended: exhaustion lasts until the index wraps.  On a clock built by
`NewClockFromSlice`, once a `Now` call has failed with the exhaustion panic,
then after any further steps (calls of `Sleep`, `ClearNapDurations`,
`NapDurations`, more time queries, passage of real time) `Now` and `TimeSince`
fail with the exhaustion panic too, as long as the clock has received at most
`2^63 - 1` time queries in all (the greatest Go `int`): until then the index
is never again below the length of the list. -/
theorem C17_exhaustion_lasts_until_index_wraps (L : List Time) (real : RealTime)
    (pre mid : List Step)
    (hq : queries pre + 1 + queries mid ≤ 9223372036854775807)
    (hfail : (machine.Now (machine.exec pre (NewClockFromSlice L real))).1 =
      .panic exhausted) :
    (machine.Now (machine.exec mid
      (machine.Now (machine.exec pre (NewClockFromSlice L real))).2)).1 =
        .panic exhausted ∧
    (∀ b : Time,
      (machine.TimeSince b (machine.exec mid
        (machine.Now (machine.exec pre (NewClockFromSlice L real))).2)).1 =
          .panic exhausted) ∧
    (∃ i : Int, indexOf (machine.exec mid
        (machine.Now (machine.exec pre (NewClockFromSlice L real))).2) = some i ∧
      (L.length : Int) ≤ i) := by
  obtain ⟨c1, k1, k2, _, k4⟩ := machine_exec_clock pre (NewClockFromSlice L real)
    (NewClockFromCallbacks (some (slicesNowFn L)) none) 0 rfl rfl
  have hc1 : c1.nowCallback = some (slicesNowFn L) := k2
  have hi1 : c1.index = (queries pre : Int) := by
    rw [k4, zero_add]
    exact wrapInt64_eq_self _ (by omega) (by omega)
  rw [Now_fst_machine, Now_slicesNowFn_exhausted_iff L _ c1 k1 hc1, hi1] at hfail
  have hs2 : (machine.Now (machine.exec pre (NewClockFromSlice L real))).2.clock =
      some { c1 with index := wrapInt64 (c1.index + 1) } := by
    rw [machine_Now_some _ c1 k1]
  obtain ⟨c3, m1, m2, _, m4⟩ := machine_exec_clock mid
    (machine.Now (machine.exec pre (NewClockFromSlice L real))).2
    { c1 with index := wrapInt64 (c1.index + 1) } ((queries pre : Int) + 1) hs2
    (by rw [hi1])
  have hc3 : c3.nowCallback = some (slicesNowFn L) := m2.trans hc1
  have hi3 : c3.index = (queries pre : Int) + 1 + (queries mid : Int) := by
    rw [m4]
    exact wrapInt64_eq_self _ (by omega) (by omega)
  have hlen : (L.length : Int) ≤ c3.index := by
    rw [hi3]
    omega
  have hNow : (machine.Now (machine.exec mid
      (machine.Now (machine.exec pre (NewClockFromSlice L real))).2)).1 =
        .panic exhausted := by
    rw [Now_fst_machine, Now_slicesNowFn_exhausted_iff L _ c3 m1 hc3]
    exact hlen
  refine ⟨hNow, fun b => ?_, c3.index, by simp [indexOf, m1], hlen⟩
  rw [machine_TimeSince_eq, hNow]
  rfl

/-- A use of the amended C17: the one instant is used up, the second `Now`
fails, and after a `Sleep` and a `ClearNapDurations` the next `Now` fails
again. -/
theorem C17_exhaustion_lasts_until_index_wraps_witness :
    (machine.Now (machine.exec [Step.Sleep 3, Step.ClearNapDurations]
      (machine.Now (machine.exec [Step.Now] (NewClockFromSlice [⟨7⟩] sampleReal))).2)).1 =
      .panic exhausted :=
  (C17_exhaustion_lasts_until_index_wraps [⟨7⟩] sampleReal [Step.Now]
    [Step.Sleep 3, Step.ClearNapDurations] (by decide) rfl).1

end clock
